import Mathlib

/-!
# amatrix2.hpp: dense matrices as a vector of rows, with text input and output

A shallow embedding of `src/amatrix2.hpp`.

* `Matrix_row T` and `Matrix T` are the two type synonyms of the header
  (`std::vector<T>` and `std::vector<std::vector<T>>`), embedded as lists.
* The input stream `std::istream` is embedded as the record `IStream`: the
  characters already extracted (most recent first, the put-back area), the
  characters still unread, and the three state bits `eofbit`, `failbit`,
  `badbit`.  The member functions the header calls (`get`, `unget`, `peek`,
  `ignore`, `operator>>` for `int`) are embedded after the C++ standard
  (C++11 and later, classic "C" locale, default format flags `skipws | dec`).
* The output stream is embedded as the list of characters written so far
  (an output stream that never fails, such as `std::ostringstream`).
* The element type of the text codec is the C++ type `int` (32 bits, two's
  complement), embedded as the subtype `CInt` of `Int`.
* `consists_of` is embedded twice: for an element type whose `operator!=` is
  the negation of a decidable equality, and for any element type with its
  `operator!=` as a parameter (`consists_of_row_by`, `consists_of_matrix_by`).
  The type `double` is embedded as far as comparison goes, as `Double`.
-/

namespace AMatrix2

/-! ## Data model -/

/-- Row of a matrix: `template <class T> using Matrix_row = std::vector<T>`. -/
abbrev Matrix_row (T : Type) : Type := List T

/-- Matrix as a vector of rows:
`template <class T> using Matrix = std::vector<Matrix_row<T>>`. -/
abbrev Matrix (T : Type) : Type := List (Matrix_row T)

/-! ## The element type `int` -/

/-- Least value of the C++ type `int` (32 bits). -/
def INT_MIN : Int := -2147483648

/-- Greatest value of the C++ type `int` (32 bits). -/
def INT_MAX : Int := 2147483647

/-- Values of the C++ type `int`: the integers from `INT_MIN` to `INT_MAX`. -/
abbrev CInt : Type := { v : Int // INT_MIN ≤ v ∧ v ≤ INT_MAX }

/-- Value-initialised `int`, written `int()` or `T{}` in the source: zero. -/
def CInt.zero : CInt := ⟨0, by decide⟩

/-- Text that `os << item` writes for an `int` (default flags): a minus sign
for a negative value, then the decimal digits of the magnitude. -/
def showInt (v : CInt) : List Char :=
  if v.val < 0 then '-' :: Nat.toDigits 10 v.val.natAbs else Nat.toDigits 10 v.val.natAbs

/-! ## Input stream -/

/-- State of a `std::istream` reading from a character sequence. -/
structure IStream where
  /-- Characters already extracted, most recent first (what `unget` can put back). -/
  consumed : List Char
  /-- Characters not yet extracted. -/
  rest : List Char
  eofbit : Bool
  failbit : Bool
  badbit : Bool
deriving DecidableEq, Repr

namespace IStream

/-- Stream freshly opened on a text: nothing extracted, no state bit set. -/
def ofText (text : List Char) : IStream :=
  { consumed := [], rest := text, eofbit := false, failbit := false, badbit := false }

/-- Member `good()`: no state bit is set. -/
def good (is : IStream) : Bool := !is.eofbit && !is.failbit && !is.badbit

/-- Member `fail()`: `failbit` or `badbit` is set.  The conversion of a stream
to `bool`, used by the loop conditions of the source, is `!fail()`. -/
def fail (is : IStream) : Bool := is.failbit || is.badbit

/-- Member `get(ch)`: an unformatted input function.  Its sentry sets `failbit`
when the stream is not good; at the end of input it sets `eofbit | failbit`;
otherwise it extracts one character. -/
def get (is : IStream) : IStream × Option Char :=
  if !is.good then ({ is with failbit := true }, none)
  else match is.rest with
    | [] => ({ is with eofbit := true, failbit := true }, none)
    | c :: cs => ({ is with consumed := c :: is.consumed, rest := cs }, some c)

/-- Member `unget()`: first clears `eofbit`, then its sentry sets `failbit`
when the stream is not good; otherwise the last extracted character is made
available again (`badbit` when there is none). -/
def unget (is : IStream) : IStream :=
  let is1 := { is with eofbit := false }
  if !is1.good then { is1 with failbit := true }
  else match is1.consumed with
    | [] => { is1 with badbit := true }
    | c :: cs => { is1 with consumed := cs, rest := c :: is1.rest }

/-- Member `peek()`: the next character without extracting it (`none` stands
for `traits::eof()`). -/
def peek (is : IStream) : IStream × Option Char :=
  if !is.good then ({ is with failbit := true }, none)
  else match is.rest with
    | [] => ({ is with eofbit := true }, none)
    | c :: _ => (is, some c)

/-- Member `ignore()` with its default arguments: extracts and discards one
character (`eofbit` at the end of input). -/
def ignore (is : IStream) : IStream :=
  if !is.good then { is with failbit := true }
  else match is.rest with
    | [] => { is with eofbit := true }
    | c :: cs => { is with consumed := c :: is.consumed, rest := cs }

end IStream

/-- Whitespace of the classic locale (`std::isspace`): space, `\t`, `\n`,
vertical tab, form feed, `\r`. -/
def isspace (c : Char) : Bool :=
  c == ' ' || c == '\t' || c == '\n' || c == Char.ofNat 11 || c == Char.ofNat 12 || c == '\r'

/-- Decimal digit. -/
def isdigit (c : Char) : Bool := decide ('0' ≤ c) && decide (c ≤ '9')

/-- Value of a run of decimal digits, most significant first. -/
def digitsValue (ds : List Char) : Nat :=
  ds.foldl (fun acc c => 10 * acc + (c.toNat - 48)) 0

/-- Value of an integer field from its sign and the value of its digits. -/
def signedValue (neg : Bool) (mag : Nat) : Int :=
  if neg then -(mag : Int) else (mag : Int)

/-- Optional sign at the start of an integer field: the sign characters
accepted, whether the sign is a minus, and the text after it. -/
def takeSign : List Char → List Char × Bool × List Char
  | '-' :: t => (['-'], true, t)
  | '+' :: t => (['+'], false, t)
  | t => ([], false, t)

/-- Formatted extraction `is >> item` for `int`.  The sentry sets `failbit` on
a stream that is not good and otherwise skips whitespace (`eofbit | failbit`
when the input ends there); then `num_get` accumulates an optional sign and the
longest run of decimal digits, sets `eofbit` when that run reaches the end of
input, and fails (`failbit`) when there is no digit or the value is not an
`int`.  The result is `none` exactly when the extraction set `failbit`: the
source never reads `item` in that case. -/
def extract_int (is : IStream) : IStream × Option CInt :=
  if !is.good then ({ is with failbit := true }, none)
  else
    let ws := is.rest.takeWhile isspace
    let r1 := is.rest.dropWhile isspace
    let is1 := { is with consumed := ws.reverse ++ is.consumed, rest := r1 }
    match r1 with
    | [] => ({ is1 with eofbit := true, failbit := true }, none)
    | _ :: _ =>
      let sg := takeSign r1
      let ds := sg.2.2.takeWhile isdigit
      let r3 := sg.2.2.dropWhile isdigit
      let is3 : IStream :=
        { is1 with consumed := ds.reverse ++ (sg.1 ++ is1.consumed), rest := r3,
                   eofbit := r3.isEmpty }
      if ds.isEmpty then ({ is3 with failbit := true }, none)
      else
        let v : Int := signedValue sg.2.1 (digitsValue ds)
        if h : INT_MIN ≤ v ∧ v ≤ INT_MAX then (is3, some ⟨v, h⟩)
        else ({ is3 with failbit := true }, none)

/-! ## Row codec -/

/-- Source `writeln(std::ostream&, const Matrix_row<T>&)`:
`for (auto &item : row) os << ' ' << item; return os << '\n';`.
The text of an element is given by `text`. -/
def writeln_row {T : Type} (text : T → List Char) (os : List Char) (row : Matrix_row T) :
    List Char :=
  row.foldl (fun os item => (os ++ [' ']) ++ text item) os ++ ['\n']

/-- Loop of `skiphws`: `for (char ch; is.get(ch) && (ch == ' ' || ch == '\t');) {}`.
The first argument bounds the number of iterations. -/
def skiphws_loop : Nat → IStream → IStream
  | 0, is => is
  | fuel + 1, is =>
    match is.get with
    | (is1, some ch) => if ch == ' ' || ch == '\t' then skiphws_loop fuel is1 else is1
    | (is1, none) => is1

/-- Source `skiphws`: run the loop, then `return is.unget();`.  Every iteration
but the last extracts a character, so `rest.length + 1` iterations suffice. -/
def skiphws (is : IStream) : IStream :=
  (skiphws_loop (is.rest.length + 1) is).unget

/-- Loop of the row `readln`:
`for (T item; skiphws(is);) { if (is.peek() == '\n') return is.ignore();
 if (!(is >> item)) return is; row.push_back(item); } return is;`.
The first argument bounds the number of iterations. -/
def readln_row_loop : Nat → IStream → Matrix_row CInt → IStream × Matrix_row CInt
  | 0, is, row => (is, row)
  | fuel + 1, is, row =>
    let is1 := skiphws is
    if is1.fail then (is1, row)
    else
      let p := is1.peek
      if p.2 = some '\n' then (p.1.ignore, row)
      else
        match extract_int p.1 with
        | (is2, none) => (is2, row)
        | (is2, some item) => readln_row_loop fuel is2 (row ++ [item])

/-- Source `readln(std::istream&, Matrix_row<T>&)` for `T = int`:
`row.clear();` then the loop.  Every iteration that continues extracts at least
one character, so `rest.length + 1` iterations suffice. -/
def readln_row (is : IStream) (_row : Matrix_row CInt) : IStream × Matrix_row CInt :=
  readln_row_loop (is.rest.length + 1) is []

/-! ## Rectangularization -/

/-- Member `resize(n)` of `std::vector`: keep the first `n` elements, append
value-initialised elements (`dflt`) up to length `n`. -/
def resize {T : Type} (dflt : T) (v : List T) (n : Nat) : List T :=
  v.take n ++ List.replicate (n - v.length) dflt

/-- First loop of `force_rectangularity`:
`size_t max_len = 0; for (auto &row : matrix) if (max_len < row.size()) max_len = row.size();`. -/
def max_len {T : Type} (matrix : Matrix T) : Nat :=
  matrix.foldl (fun acc row => if acc < row.length then row.length else acc) 0

/-- Source `force_rectangularity`: clear the matrix when `max_len == 0`,
otherwise `row.resize(max_len)` for every row. -/
def force_rectangularity {T : Type} (dflt : T) (matrix : Matrix T) : Matrix T :=
  if max_len matrix = 0 then []
  else matrix.map (fun row => resize dflt row (max_len matrix))

/-! ## Matrix codec -/

/-- Source `writeln(std::ostream&, const Matrix<T>&)`:
`for (auto &row : matrix) writeln(os, row); return os << '\n';`. -/
def writeln_matrix {T : Type} (text : T → List Char) (os : List Char) (matrix : Matrix T) :
    List Char :=
  matrix.foldl (fun os row => writeln_row text os row) os ++ ['\n']

/-- Loop of the matrix `readln`:
`for (Matrix_row<T> row; readln(is, row) && !row.empty();) matrix.push_back(row);`.
The first argument bounds the number of iterations. -/
def readln_matrix_loop :
    Nat → IStream → Matrix_row CInt → Matrix CInt → IStream × Matrix CInt
  | 0, is, _, matrix => (is, matrix)
  | fuel + 1, is, row, matrix =>
    let r := readln_row is row
    if !r.1.fail && !r.2.isEmpty then readln_matrix_loop fuel r.1 r.2 (matrix ++ [r.2])
    else (r.1, matrix)

/-- Source `readln(std::istream&, Matrix<T>&)` for `T = int`:
`matrix.clear();`, the loop, `force_rectangularity(matrix); return is;`.
Every iteration that continues extracts at least one character, so
`rest.length + 1` iterations suffice. -/
def readln_matrix (is : IStream) (_matrix : Matrix CInt) : IStream × Matrix CInt :=
  let r := readln_matrix_loop (is.rest.length + 1) is [] []
  (r.1, force_rectangularity CInt.zero r.2)

/-! ## Shape queries and construction -/

/-- Source `rows`: `matrix.size()`. -/
def rows {T : Type} (matrix : Matrix T) : Nat := matrix.length

/-- Source `cols`: `matrix.empty() ? 0 : matrix.front().size()`. -/
def cols {T : Type} (matrix : Matrix T) : Nat :=
  match matrix with
  | [] => 0
  | row :: _ => row.length

/-- Source `matrix(const T (&arr)[N][M])`: `Matrix<T> result(N);` then
`result[i].assign(&arr[i][0], &arr[i][M])` for `i` from `0` to `N - 1`. -/
def matrix_of_array {T : Type} {N M : Nat} (arr : Fin N → Fin M → T) : Matrix T :=
  (List.finRange N).foldl (fun result i => result.set i.val (List.ofFn (arr i)))
    (List.replicate N [])

/-- Source `matrix(size_t rows, size_t cols, T value)`: `Matrix<T> result(rows);`
then `row.assign(cols, value)` for every row. -/
def matrix_fill {T : Type} (rows cols : Nat) (value : T) : Matrix T :=
  (List.replicate rows ([] : Matrix_row T)).map (fun _ => List.replicate cols value)

/-- Body of the loops of both `diagonal` builders:
`auto &row = result[i]; row.resize(size); row[i] = value;`. -/
def diagonal_step {T : Type} (dflt : T) (size : Nat) (result : Matrix T) (i : Nat) (value : T) :
    Matrix T :=
  result.set i ((resize dflt (result.getD i []) size).set i value)

/-- Source `diagonal(size_t size, T value)`: `Matrix<T> result(size);` then the
loop body for `i` from `0` to `size - 1`. -/
def diagonal {T : Type} (dflt : T) (size : Nat) (value : T) : Matrix T :=
  (List.range size).foldl (fun result i => diagonal_step dflt size result i value)
    (List.replicate size [])

/-- Source `diagonal(It from, It to)`, the range given as the list of its
values: `size = distance(from, to)`, `result(size)`, then the loop body with
`*from` for `i` from `0` to `size - 1`, advancing `from`.  The overloads for a
collection and for an initializer list forward to this one. -/
def diagonal_range {T : Type} (dflt : T) (values : List T) : Matrix T :=
  values.enum.foldl (fun result p => diagonal_step dflt values.length result p.1 p.2)
    (List.replicate values.length [])

/-- Source `reshape`: `matrix.resize(rows);` (new rows are empty vectors), then
`row.resize(cols)` for every row. -/
def reshape {T : Type} (dflt : T) (matrix : Matrix T) (rows cols : Nat) : Matrix T :=
  (resize ([] : Matrix_row T) matrix rows).map (fun row => resize dflt row cols)

/-- Source `fill(Matrix_row<T>&, T)`: `row.assign(row.size(), value)`. -/
def fill_row {T : Type} (row : Matrix_row T) (value : T) : Matrix_row T :=
  List.replicate row.length value

/-- Source `fill(Matrix<T>&, T)`: `fill(row, value)` for every row. -/
def fill_matrix {T : Type} (matrix : Matrix T) (value : T) : Matrix T :=
  matrix.map (fun row => fill_row row value)

/-- Source `consists_of(const std::vector<T>&, const T&)`:
`for (auto &item : vec) if (item != value) return false; return true;`. -/
def consists_of_row {T : Type} [DecidableEq T] : Matrix_row T → T → Bool
  | [], _ => true
  | item :: rest, value => if item ≠ value then false else consists_of_row rest value

/-- Source `consists_of(const Matrix<T>&, T)`:
`for (auto &row : matrix) if (!consists_of(row, value)) return false; return true;`. -/
def consists_of_matrix {T : Type} [DecidableEq T] : Matrix T → T → Bool
  | [], _ => true
  | row :: rest, value =>
    if !consists_of_row row value then false else consists_of_matrix rest value

/-- Source `consists_of(const std::vector<T>&, const T&)` for an element type
whose `operator!=` is `ne`, whatever that operator computes:
`for (auto &item : vec) if (item != value) return false; return true;`. -/
def consists_of_row_by {T : Type} (ne : T → T → Bool) : Matrix_row T → T → Bool
  | [], _ => true
  | item :: rest, value => if ne item value then false else consists_of_row_by ne rest value

/-- Source `consists_of(const Matrix<T>&, T)` for an element type whose
`operator!=` is `ne`:
`for (auto &row : matrix) if (!consists_of(row, value)) return false; return true;`. -/
def consists_of_matrix_by {T : Type} (ne : T → T → Bool) : Matrix T → T → Bool
  | [], _ => true
  | row :: rest, value =>
    if !consists_of_row_by ne row value then false else consists_of_matrix_by ne rest value

/-- Values of the C++ type `double` as far as comparison goes: a NaN, or a
number (numbers are told apart by an integer). -/
inductive Double where
  | nan : Double
  | num (v : Int) : Double
deriving DecidableEq, Repr

/-- Comparison `operator!=` of `double` (IEEE 754): true when either operand is
a NaN, and otherwise true exactly when the two numbers differ. -/
def Double.ne : Double → Double → Bool
  | Double.num a, Double.num b => a != b
  | _, _ => true

/-! ## Reference definitions, written after the specification -/

/-- Maximum row length across all rows, 0 for a matrix without rows. -/
def max_len_ref {T : Type} (matrix : Matrix T) : Nat :=
  (matrix.map List.length).foldr max 0

/-- Rectangularization as the specification words it: no rows when the maximum
row length is 0, otherwise every row followed by default values up to the
maximum row length. -/
def force_rectangularity_ref {T : Type} (dflt : T) (matrix : Matrix T) : Matrix T :=
  if max_len_ref matrix = 0 then []
  else matrix.map (fun row => row ++ List.replicate (max_len_ref matrix - row.length) dflt)

/-- Row serialization as the specification words it: for each element one
space and the element's text, then one line terminator. -/
def row_text {T : Type} (text : T → List Char) (row : Matrix_row T) : List Char :=
  row.flatMap (fun item => ' ' :: text item) ++ ['\n']

/-- Matrix serialization as the specification words it: the serialization of
each row in order, then one more line terminator. -/
def matrix_text {T : Type} (text : T → List Char) (matrix : Matrix T) : List Char :=
  matrix.flatMap (row_text text) ++ ['\n']

/-- Rectangularity invariant of the specification: the matrix has zero rows,
or every row has the length `cols` reports. -/
def Rectangular {T : Type} (matrix : Matrix T) : Prop :=
  rows matrix = 0 ∨ ∀ row ∈ matrix, row.length = cols matrix

instance {T : Type} (matrix : Matrix T) : Decidable (Rectangular matrix) := by
  unfold Rectangular; infer_instance

/-! ## Texts and predicates used to state the properties -/

/-- Text made of spaces and tabs only. -/
def HwsOnly (ws : List Char) : Prop := ∀ c ∈ ws, c = ' ' ∨ c = '\t'

instance (ws : List Char) : Decidable (HwsOnly ws) := by
  unfold HwsOnly; infer_instance

/-- Text that does not begin with a decimal digit (the empty text included). -/
def NoDigitHead (t : List Char) : Prop := ∀ c ∈ t.head?, isdigit c = false

instance (t : List Char) : Decidable (NoDigitHead t) := by
  unfold NoDigitHead; infer_instance

/-- Token of a line: the horizontal whitespace in front of it and the `int`
whose decimal text it is. -/
abbrev Token : Type := List Char × CInt

/-- Text of a sequence of tokens: each token's leading whitespace, then the
decimal text of its value. -/
def tokens_text (toks : List Token) : List Char :=
  toks.flatMap (fun t => t.1 ++ showInt t.2)

/-- Values of a sequence of tokens, in order. -/
def tokens_row (toks : List Token) : Matrix_row CInt := toks.map (fun t => t.2)

/-- Well-formed separators: spaces and tabs only in front of every token, and
at least one of them in front of every token but the first. -/
def SepsOk (toks : List Token) : Prop :=
  (∀ t ∈ toks, HwsOnly t.1) ∧ (∀ t ∈ toks.tail, t.1 ≠ [])

instance (toks : List Token) : Decidable (SepsOk toks) := by
  unfold SepsOk; infer_instance

/-- Text that the extraction of an `int` rejects: it begins with a character
other than space, tab and line terminator, and `is >> item` on it fails. -/
def Unparsable (bad : List Char) : Prop :=
  (∃ c ∈ bad.head?, c ≠ ' ' ∧ c ≠ '\t' ∧ c ≠ '\n') ∧
    (extract_int (IStream.ofText bad)).2 = none

instance (bad : List Char) : Decidable (Unparsable bad) := by
  unfold Unparsable; infer_instance

/-- Text of a line: its tokens, trailing spaces and tabs, the line terminator. -/
def line_text (toks : List Token) (trail : List Char) : List Char :=
  tokens_text toks ++ (trail ++ ['\n'])

/-- Line of a matrix text: its tokens and the spaces and tabs after them. -/
abbrev Line : Type := List Token × List Char

/-- Text of a sequence of lines. -/
def lines_text (lines : List Line) : List Char :=
  lines.flatMap (fun l => line_text l.1 l.2)

/-- Rows a sequence of lines stands for. -/
def lines_rows (lines : List Line) : Matrix CInt :=
  lines.map (fun l => tokens_row l.1)

/-- Well-formed non-empty row lines: every line holds at least one token, its
separators are well formed, and only spaces and tabs follow the last token. -/
def LinesOk (lines : List Line) : Prop :=
  ∀ l ∈ lines, l.1 ≠ [] ∧ SepsOk l.1 ∧ HwsOnly l.2

instance (lines : List Line) : Decidable (LinesOk lines) := by
  unfold LinesOk; infer_instance

/-- Tokens of a row as `writeln` emits it: one space in front of every element. -/
def written_tokens (row : Matrix_row CInt) : List Token := row.map (fun x => ([' '], x))

/-- Line of a row as `writeln` emits it: nothing after the last element. -/
def written_line (row : Matrix_row CInt) : Line := (written_tokens row, [])

/-- Text of a row written as its decimal elements separated by single spaces
and ended by a line terminator. -/
def plain_row_text (row : Matrix_row CInt) : List Char :=
  List.intercalate [' '] (row.map showInt) ++ ['\n']

/-- Text of rows written as plain lines, followed by one blank line. -/
def plain_matrix_text (matrix : Matrix CInt) : List Char :=
  matrix.flatMap plain_row_text ++ ['\n']

/-- Tokens of a plain line: nothing in front of the first element, one space in
front of every other. -/
def plain_tokens : Matrix_row CInt → List Token
  | [] => []
  | x :: xs => ([], x) :: written_tokens xs

/-- Plain line of a row. -/
def plain_line (row : Matrix_row CInt) : Line := (plain_tokens row, [])

/-- Character on which the extraction of an `int` fails whatever follows it:
not whitespace (which the extraction skips), not a digit, not a sign. -/
def CannotStartInt (c : Char) : Prop :=
  isspace c = false ∧ isdigit c = false ∧ c ≠ '+' ∧ c ≠ '-'

instance (c : Char) : Decidable (CannotStartInt c) := by
  unfold CannotStartInt; infer_instance

/-- What may follow the integers of a row that is cut short: the end of input,
or a character that cannot start an integer and the text after it. -/
def CutShort (ending : List Char) : Prop := ∀ c ∈ ending.head?, CannotStartInt c

instance (ending : List Char) : Decidable (CutShort ending) := by
  unfold CutShort; infer_instance

/-- Helper to write concrete `int` values: the value itself when it is an
`int`, zero otherwise. -/
def CInt.ofInt (v : Int) : CInt :=
  if h : INT_MIN ≤ v ∧ v ≤ INT_MAX then ⟨v, h⟩ else CInt.zero

/-- Element of a matrix at row `i`, column `j` (`matrix[i][j]`), when both
indices are in range. -/
def entry {T : Type} (matrix : Matrix T) (i j : Nat) : Option T :=
  matrix[i]?.bind (fun row => row[j]?)

/-! ## Rectangularization: lemmas -/

section Rectangularization

variable {T : Type}

theorem max_len_foldl (matrix : Matrix T) (acc : Nat) :
    matrix.foldl (fun acc row => if acc < row.length then row.length else acc) acc
      = max acc (max_len_ref matrix) := by
  induction matrix generalizing acc with
  | nil => simp [max_len_ref]
  | cons row rest ih =>
    simp only [List.foldl_cons, ih, max_len_ref, List.map_cons, List.foldr_cons]
    split <;> omega

theorem max_len_eq_ref (matrix : Matrix T) : max_len matrix = max_len_ref matrix := by
  simp [max_len, max_len_foldl]

theorem length_le_max_len_ref {matrix : Matrix T} {row : Matrix_row T} (h : row ∈ matrix) :
    row.length ≤ max_len_ref matrix := by
  induction matrix with
  | nil => cases h
  | cons r rest ih =>
    simp only [max_len_ref, List.map_cons, List.foldr_cons]
    rcases List.mem_cons.mp h with h1 | h1
    · subst h1; exact Nat.le_max_left _ _
    · exact Nat.le_trans (ih h1) (Nat.le_max_right _ _)

theorem resize_of_length_le (dflt : T) {row : Matrix_row T} {n : Nat} (h : row.length ≤ n) :
    resize dflt row n = row ++ List.replicate (n - row.length) dflt := by
  simp [resize, List.take_of_length_le h]

theorem resize_length (dflt : T) (row : Matrix_row T) (n : Nat) :
    (resize dflt row n).length = n := by
  simp only [resize, List.length_append, List.length_take, List.length_replicate]
  omega

theorem resize_self (dflt : T) (row : Matrix_row T) : resize dflt row row.length = row := by
  simp [resize]

theorem force_rectangularity_eq_ref (dflt : T) (matrix : Matrix T) :
    force_rectangularity dflt matrix = force_rectangularity_ref dflt matrix := by
  unfold force_rectangularity force_rectangularity_ref
  rw [max_len_eq_ref]
  split
  · rfl
  · exact List.map_congr_left (fun row h => resize_of_length_le dflt (length_le_max_len_ref h))

theorem max_len_ref_of_uniform {matrix : Matrix T} {n : Nat} (hne : matrix ≠ [])
    (h : ∀ row ∈ matrix, row.length = n) : max_len_ref matrix = n := by
  induction matrix with
  | nil => exact absurd rfl hne
  | cons r rest ih =>
    simp only [max_len_ref, List.map_cons, List.foldr_cons]
    have hr : r.length = n := h r (List.mem_cons_self _ _)
    cases rest with
    | nil => simp [hr]
    | cons r2 rest2 =>
      have := ih (List.cons_ne_nil _ _) (fun row hrow => h row (List.mem_cons_of_mem _ hrow))
      simp only [max_len_ref] at this
      rw [this, hr]; exact Nat.max_self n

/-- A matrix whose rows share one length greater than zero is left as it is. -/
theorem force_rectangularity_of_uniform (dflt : T) {matrix : Matrix T} {n : Nat}
    (hn : 0 < n) (h : ∀ row ∈ matrix, row.length = n) :
    force_rectangularity dflt matrix = matrix := by
  cases hm : matrix with
  | nil => simp [force_rectangularity, max_len]
  | cons r rest =>
    have hne : matrix ≠ [] := by simp [hm]
    have hmax := max_len_ref_of_uniform hne h
    rw [← hm]
    unfold force_rectangularity
    rw [max_len_eq_ref, hmax, if_neg (by omega)]
    conv_rhs => rw [← List.map_id matrix]
    apply List.map_congr_left
    intro row hrow
    rw [← h row hrow]
    exact resize_self dflt row

theorem force_rectangularity_lengths (dflt : T) (matrix : Matrix T) :
    ∀ row ∈ force_rectangularity dflt matrix, row.length = max_len_ref matrix := by
  intro row hrow
  unfold force_rectangularity at hrow
  rw [max_len_eq_ref] at hrow
  split at hrow
  · cases hrow
  · obtain ⟨r, _, rfl⟩ := List.mem_map.mp hrow
    exact resize_length dflt r _

theorem rectangular_of_lengths {matrix : Matrix T} {n : Nat}
    (h : ∀ row ∈ matrix, row.length = n) : Rectangular matrix := by
  refine Or.inr (fun row hrow => ?_)
  cases matrix with
  | nil => cases hrow
  | cons r rest =>
    simp only [cols]
    rw [h row hrow, h r (List.mem_cons_self _ _)]

end Rectangularization

/-! ## Serialization: lemmas -/

section Serialization

variable {T : Type}

theorem writeln_row_loop_eq (text : T → List Char) (row : Matrix_row T) (os : List Char) :
    row.foldl (fun os item => (os ++ [' ']) ++ text item) os
      = os ++ row.flatMap (fun item => ' ' :: text item) := by
  induction row generalizing os with
  | nil => simp
  | cons item rest ih =>
    rw [List.foldl_cons, ih, List.flatMap_cons]
    simp only [List.append_assoc, List.singleton_append, List.cons_append, List.nil_append]

theorem writeln_row_eq (text : T → List Char) (os : List Char) (row : Matrix_row T) :
    writeln_row text os row = os ++ row_text text row := by
  rw [writeln_row, row_text, writeln_row_loop_eq, List.append_assoc]

theorem writeln_matrix_loop_eq (text : T → List Char) (matrix : Matrix T) (os : List Char) :
    matrix.foldl (fun os row => writeln_row text os row) os
      = os ++ matrix.flatMap (row_text text) := by
  induction matrix generalizing os with
  | nil => simp
  | cons row rest ih =>
    rw [List.foldl_cons, ih, List.flatMap_cons, writeln_row_eq, List.append_assoc]

theorem writeln_matrix_eq (text : T → List Char) (os : List Char) (matrix : Matrix T) :
    writeln_matrix text os matrix = os ++ matrix_text text matrix := by
  rw [writeln_matrix, matrix_text, writeln_matrix_loop_eq, List.append_assoc]

end Serialization

/-! ## Decimal text of integers: lemmas -/

theorem digitChar_isdigit {d : Nat} (h : d < 10) : isdigit (Nat.digitChar d) = true := by
  interval_cases d <;> decide

theorem digitChar_value {d : Nat} (h : d < 10) : (Nat.digitChar d).toNat - 48 = d := by
  interval_cases d <;> decide

theorem digitsValue_append (ds : List Char) (c : Char) :
    digitsValue (ds ++ [c]) = 10 * digitsValue ds + (c.toNat - 48) := by
  simp [digitsValue, List.foldl_append]

theorem toDigitsCore_spec (fuel : Nat) : ∀ (n : Nat) (ds : List Char), n < fuel →
    ∃ pre : List Char, Nat.toDigitsCore 10 fuel n ds = pre ++ ds ∧ pre ≠ [] ∧
      (∀ c ∈ pre, isdigit c = true) ∧ digitsValue pre = n := by
  induction fuel with
  | zero => intro n ds h; omega
  | succ fuel ih =>
    intro n ds h
    have hd : n % 10 < 10 := Nat.mod_lt _ (by decide)
    unfold Nat.toDigitsCore
    by_cases h0 : n / 10 = 0
    · refine ⟨[Nat.digitChar (n % 10)], by simp [h0], by simp, ?_, ?_⟩
      · intro c hc
        rw [List.mem_singleton.mp hc]; exact digitChar_isdigit hd
      · have := digitsValue_append [] (Nat.digitChar (n % 10))
        simp only [List.nil_append] at this
        rw [this, digitChar_value hd]
        simp only [digitsValue, List.foldl_nil]
        omega
    · obtain ⟨pre, hpre, _, hall, hval⟩ := ih (n / 10) (Nat.digitChar (n % 10) :: ds) (by omega)
      refine ⟨pre ++ [Nat.digitChar (n % 10)], by simp [h0, hpre], by simp, ?_, ?_⟩
      · intro c hc
        rcases List.mem_append.mp hc with h1 | h1
        · exact hall c h1
        · rw [List.mem_singleton.mp h1]; exact digitChar_isdigit hd
      · rw [digitsValue_append, hval, digitChar_value hd]
        omega

theorem toDigits_spec (n : Nat) :
    Nat.toDigits 10 n ≠ [] ∧ (∀ c ∈ Nat.toDigits 10 n, isdigit c = true) ∧
      digitsValue (Nat.toDigits 10 n) = n := by
  obtain ⟨pre, hpre, hne, hall, hval⟩ := toDigitsCore_spec (n + 1) n [] (Nat.lt_succ_self n)
  have : Nat.toDigits 10 n = pre := by simpa [Nat.toDigits] using hpre
  rw [this]
  exact ⟨hne, hall, hval⟩

/-! ## Horizontal whitespace: lemmas -/

theorem HwsOnly.tail {c : Char} {ws : List Char} (h : HwsOnly (c :: ws)) : HwsOnly ws :=
  fun d hd => h d (List.mem_cons_of_mem _ hd)

theorem skiphws_loop_stop (ws : List Char) : ∀ (fuel : Nat) (cons : List Char) (c : Char)
    (tail : List Char), HwsOnly ws → c ≠ ' ' → c ≠ '\t' → ws.length < fuel →
    skiphws_loop fuel ⟨cons, ws ++ c :: tail, false, false, false⟩
      = ⟨c :: (ws.reverse ++ cons), tail, false, false, false⟩ := by
  induction ws with
  | nil =>
    intro fuel cons c tail _ h1 h2 hf
    obtain ⟨f, rfl⟩ : ∃ f, fuel = f + 1 := ⟨fuel - 1, by simp at hf; omega⟩
    simp [skiphws_loop, IStream.get, IStream.good, h1, h2]
  | cons w ws ih =>
    intro fuel cons c tail hws h1 h2 hf
    obtain ⟨f, rfl⟩ : ∃ f, fuel = f + 1 := ⟨fuel - 1, by simp at hf; omega⟩
    have hw : w = ' ' ∨ w = '\t' := hws w (List.mem_cons_self _ _)
    have := ih f (w :: cons) c tail hws.tail h1 h2 (by simp at hf; omega)
    simpa [skiphws_loop, IStream.get, IStream.good, hw] using this

theorem skiphws_loop_eof (ws : List Char) : ∀ (fuel : Nat) (cons : List Char),
    HwsOnly ws → ws.length < fuel →
    skiphws_loop fuel ⟨cons, ws, false, false, false⟩
      = ⟨ws.reverse ++ cons, [], true, true, false⟩ := by
  induction ws with
  | nil =>
    intro fuel cons _ hf
    obtain ⟨f, rfl⟩ : ∃ f, fuel = f + 1 := ⟨fuel - 1, by simp at hf; omega⟩
    simp [skiphws_loop, IStream.get, IStream.good]
  | cons w ws ih =>
    intro fuel cons hws hf
    obtain ⟨f, rfl⟩ : ∃ f, fuel = f + 1 := ⟨fuel - 1, by simp at hf; omega⟩
    have hw : w = ' ' ∨ w = '\t' := hws w (List.mem_cons_self _ _)
    have := ih f (w :: cons) hws.tail (by simp at hf; omega)
    simpa [skiphws_loop, IStream.get, IStream.good, hw] using this

/-- Skipping horizontal whitespace in front of another character stops at that
character and leaves the stream good. -/
theorem skiphws_stop (ws cons : List Char) (c : Char) (tail : List Char)
    (hws : HwsOnly ws) (h1 : c ≠ ' ') (h2 : c ≠ '\t') :
    skiphws ⟨cons, ws ++ c :: tail, false, false, false⟩
      = ⟨ws.reverse ++ cons, c :: tail, false, false, false⟩ := by
  unfold skiphws
  rw [skiphws_loop_stop ws _ cons c tail hws h1 h2
    (by simp only [List.length_append, List.length_cons]; omega)]
  simp [IStream.unget, IStream.good]

/-- Skipping horizontal whitespace up to the end of input fails. -/
theorem skiphws_eof (ws cons : List Char) (hws : HwsOnly ws) :
    skiphws ⟨cons, ws, false, false, false⟩
      = ⟨ws.reverse ++ cons, [], false, true, false⟩ := by
  unfold skiphws
  rw [skiphws_loop_eof ws _ cons hws (by simp)]
  simp [IStream.unget, IStream.good]

/-- On a stream that is not good `skiphws` extracts nothing and fails. -/
theorem skiphws_not_good (is : IStream) (h : is.good = false) :
    skiphws is = { is with eofbit := false, failbit := true } := by
  have hget : is.get = ({ is with failbit := true }, none) := by simp [IStream.get, h]
  unfold skiphws
  simp only [skiphws_loop, hget]
  simp [IStream.unget, IStream.good]

/-! ## Extraction of an `int`: lemmas -/

theorem isdigit_not_isspace {c : Char} (h : isdigit c = true) : isspace c = false := by
  cases hs : isspace c with
  | false => rfl
  | true =>
    simp only [isspace, Bool.or_eq_true, beq_iff_eq] at hs
    rcases hs with ((((hs | hs) | hs) | hs) | hs) | hs <;> subst hs <;> revert h <;> decide

theorem isdigit_ne_minus {c : Char} (h : isdigit c = true) : c ≠ '-' := by
  intro hc; subst hc; revert h; decide

theorem isdigit_ne_plus {c : Char} (h : isdigit c = true) : c ≠ '+' := by
  intro hc; subst hc; revert h; decide

theorem takeSign_of_digit {c : Char} (t : List Char) (h : isdigit c = true) :
    takeSign (c :: t) = ([], false, c :: t) := by
  unfold takeSign
  split
  · rename_i heq; exact absurd (List.cons.inj heq).1 (isdigit_ne_minus h)
  · rename_i heq; exact absurd (List.cons.inj heq).1 (isdigit_ne_plus h)
  · rfl

theorem takeWhile_digits (ds tail : List Char) (hall : ∀ c ∈ ds, isdigit c = true)
    (htail : NoDigitHead tail) :
    (ds ++ tail).takeWhile isdigit = ds ∧ (ds ++ tail).dropWhile isdigit = tail := by
  induction ds with
  | nil =>
    cases tail with
    | nil => simp
    | cons c t =>
      have : isdigit c = false := htail c (by simp)
      simp [List.takeWhile_cons, List.dropWhile_cons, this]
  | cons d ds ih =>
    have hd : isdigit d = true := hall d (List.mem_cons_self _ _)
    have := ih (fun c hc => hall c (List.mem_cons_of_mem _ hc))
    simp [List.takeWhile_cons, List.dropWhile_cons, hd, this]

/-- Decimal text of an `int`: an optional minus sign, then a non-empty run of
digits whose value is the magnitude. -/
theorem showInt_shape (v : CInt) :
    ∃ (d : Char) (ds : List Char), isdigit d = true ∧ (∀ c ∈ ds, isdigit c = true) ∧
      digitsValue (d :: ds) = v.val.natAbs ∧
      showInt v = (if v.val < 0 then ['-'] else []) ++ d :: ds := by
  obtain ⟨hne, hall, hval⟩ := toDigits_spec v.val.natAbs
  cases hds : Nat.toDigits 10 v.val.natAbs with
  | nil => exact absurd hds hne
  | cons d ds =>
    rw [hds] at hall hval
    refine ⟨d, ds, hall d (List.mem_cons_self _ _),
      fun c hc => hall c (List.mem_cons_of_mem _ hc), hval, ?_⟩
    unfold showInt
    rw [hds]
    split <;> rfl

/-- The text of an `int` begins with a character that is neither whitespace nor
a line terminator. -/
theorem showInt_head (v : CInt) :
    ∃ (c : Char) (cs : List Char), showInt v = c :: cs ∧ isspace c = false ∧
      c ≠ ' ' ∧ c ≠ '\t' ∧ c ≠ '\n' := by
  obtain ⟨d, ds, hd, _, _, hshow⟩ := showInt_shape v
  have hsp := isdigit_not_isspace hd
  by_cases hneg : v.val < 0
  · refine ⟨'-', d :: ds, by simp [hshow, hneg], by decide, by decide, by decide, by decide⟩
  · refine ⟨d, ds, by simp [hshow, hneg], hsp, ?_, ?_, ?_⟩ <;>
      (intro hc; subst hc; revert hsp; decide)

theorem showInt_length_pos (v : CInt) : 0 < (showInt v).length := by
  obtain ⟨c, cs, h, _⟩ := showInt_head v
  simp [h]

/-- Extraction from a good stream whose next character is not whitespace:
the sentry extracts nothing and the number is read at once. -/
theorem extract_int_of_not_space (cons : List Char) (c : Char) (t : List Char)
    (hc : isspace c = false) (sign ds tail : List Char) (neg : Bool)
    (hsign : takeSign (c :: t) = (sign, neg, ds ++ tail))
    (hne : ds ≠ []) (hall : ∀ x ∈ ds, isdigit x = true) (htail : NoDigitHead tail)
    (hr : INT_MIN ≤ signedValue neg (digitsValue ds) ∧
      signedValue neg (digitsValue ds) ≤ INT_MAX) :
    extract_int ⟨cons, c :: t, false, false, false⟩
      = (⟨ds.reverse ++ (sign ++ cons), tail, tail.isEmpty, false, false⟩,
          some ⟨signedValue neg (digitsValue ds), hr⟩) := by
  obtain ⟨htake, hdrop⟩ := takeWhile_digits ds tail hall htail
  have h1 : (c :: t).takeWhile isspace = [] := by simp [List.takeWhile_cons, hc]
  have h2 : (c :: t).dropWhile isspace = c :: t := by simp [List.dropWhile_cons, hc]
  have h3 : ds.isEmpty = false := by cases ds with
    | nil => exact absurd rfl hne
    | cons _ _ => rfl
  simp only [extract_int, IStream.good, h1, h2, hsign, htake, hdrop, h3]
  simp [hr]

/-- Extracting an `int` from its own text, followed by something that is not a
digit, gives back the value and consumes exactly that text. -/
theorem extract_int_showInt (v : CInt) (cons tail : List Char) (htail : NoDigitHead tail) :
    extract_int ⟨cons, showInt v ++ tail, false, false, false⟩
      = (⟨(showInt v).reverse ++ cons, tail, tail.isEmpty, false, false⟩, some v) := by
  obtain ⟨d, ds, hd, hds, hval, hshow⟩ := showInt_shape v
  have hall : ∀ c ∈ d :: ds, isdigit c = true := by
    intro c hc
    rcases List.mem_cons.mp hc with h | h
    · rw [h]; exact hd
    · exact hds c h
  rw [hshow]
  by_cases hneg : v.val < 0
  · have hv : signedValue true (digitsValue (d :: ds)) = v.val := by
      rw [hval]; simp only [signedValue, if_true]; omega
    have hr := v.property
    rw [← hv] at hr
    have := extract_int_of_not_space cons '-' (d :: ds ++ tail) (by decide) ['-'] (d :: ds) tail
      true rfl (List.cons_ne_nil _ _) hall htail hr
    simp only [hneg, if_true, List.singleton_append, List.cons_append, List.nil_append,
      List.append_assoc] at this ⊢
    rw [this]
    simp [Subtype.ext_iff, hv]
  · have hv : signedValue false (digitsValue (d :: ds)) = v.val := by
      rw [hval]; simp only [signedValue, Bool.false_eq_true, if_false]; omega
    have hr := v.property
    rw [← hv] at hr
    have := extract_int_of_not_space cons d (ds ++ tail) (isdigit_not_isspace hd) [] (d :: ds)
      tail false (takeSign_of_digit _ hd) (List.cons_ne_nil _ _) hall htail hr
    simp only [hneg, if_false, List.singleton_append, List.cons_append, List.nil_append,
      List.append_assoc] at this ⊢
    rw [this]
    simp [Subtype.ext_iff, hv]

/-! ## Lines of text -/

theorem tokens_text_cons (t : Token) (ts : List Token) :
    tokens_text (t :: ts) = t.1 ++ (showInt t.2 ++ tokens_text ts) := by
  simp [tokens_text, List.flatMap_cons]

theorem HwsOnly.noDigitHead_append {ws : List Char} (h : HwsOnly ws) (hne : ws ≠ [])
    (t : List Char) : NoDigitHead (ws ++ t) := by
  cases ws with
  | nil => exact absurd rfl hne
  | cons w ws =>
    intro c hc
    simp only [List.cons_append, List.head?_cons, Option.mem_def, Option.some.injEq] at hc
    subst hc
    rcases h w (List.mem_cons_self _ _) with h1 | h1 <;> subst h1 <;> decide

theorem noDigitHead_tokens (ts : List Token) (after : List Char)
    (hsep : ∀ t ∈ ts, HwsOnly t.1 ∧ t.1 ≠ []) (hafter : NoDigitHead after) :
    NoDigitHead (tokens_text ts ++ after) := by
  cases ts with
  | nil => simpa [tokens_text] using hafter
  | cons u us =>
    obtain ⟨h1, h2⟩ := hsep u (List.mem_cons_self _ _)
    rw [tokens_text_cons, List.append_assoc]
    exact h1.noDigitHead_append h2 _

theorem readln_row_loop_succ (fuel : Nat) (is : IStream) (row : Matrix_row CInt) :
    readln_row_loop (fuel + 1) is row =
      (let is1 := skiphws is
      if is1.fail then (is1, row)
      else
        let p := is1.peek
        if p.2 = some '\n' then (p.1.ignore, row)
        else
          match extract_int p.1 with
          | (is2, none) => (is2, row)
          | (is2, some item) => readln_row_loop fuel is2 (row ++ [item])) := rfl

/-- One iteration of the row loop on a token: the token's value is appended. -/
theorem readln_row_loop_token (fuel : Nat) (cons : List Char) (row : Matrix_row CInt)
    (t : Token) (tail : List Char) (hsep : HwsOnly t.1) (htail : NoDigitHead tail) :
    readln_row_loop (fuel + 1) ⟨cons, t.1 ++ (showInt t.2 ++ tail), false, false, false⟩ row
      = readln_row_loop fuel
          ⟨(showInt t.2).reverse ++ (t.1.reverse ++ cons), tail, tail.isEmpty, false, false⟩
          (row ++ [t.2]) := by
  obtain ⟨c, cs, hshow, _, hc1, hc2, hc3⟩ := showInt_head t.2
  have hskip := skiphws_stop t.1 cons c (cs ++ tail) hsep hc1 hc2
  have hext := extract_int_showInt t.2 (t.1.reverse ++ cons) tail htail
  rw [hshow] at hext
  simp only [List.cons_append] at hext
  rw [readln_row_loop_succ]
  simp only [hshow, List.cons_append, hskip, IStream.fail, IStream.peek, IStream.good]
  simp [hc3, hext]

/-- The row loop on a sequence of tokens appends their values and stops in
front of what follows them. -/
theorem readln_row_loop_tokens (toks : List Token) : ∀ (fuel : Nat) (cons : List Char)
    (row : Matrix_row CInt) (after : List Char), SepsOk toks → NoDigitHead after →
    readln_row_loop (toks.length + fuel) ⟨cons, tokens_text toks ++ after, false, false, false⟩ row
      = readln_row_loop fuel
          ⟨(tokens_text toks).reverse ++ cons, after, !toks.isEmpty && after.isEmpty, false, false⟩
          (row ++ tokens_row toks) := by
  induction toks with
  | nil => intro fuel cons row after _ _; simp [tokens_text, tokens_row]
  | cons t ts ih =>
    intro fuel cons row after hsep hafter
    have hts : ∀ u ∈ ts, HwsOnly u.1 ∧ u.1 ≠ [] := fun u hu =>
      ⟨hsep.1 u (List.mem_cons_of_mem _ hu), hsep.2 u hu⟩
    have hsep2 : SepsOk ts :=
      ⟨fun u hu => (hts u hu).1, fun u hu => (hts u (List.mem_of_mem_tail hu)).2⟩
    have hnd := noDigitHead_tokens ts after hts hafter
    have hfuel : (t :: ts).length + fuel = (ts.length + fuel) + 1 := by
      simp only [List.length_cons]; omega
    rw [hfuel, tokens_text_cons, List.append_assoc, List.append_assoc,
      readln_row_loop_token _ cons row t _ (hsep.1 t (List.mem_cons_self _ _)) hnd]
    cases ts with
    | nil => simp [tokens_text, tokens_row]
    | cons u us =>
      have hne : (tokens_text (u :: us) ++ after).isEmpty = false := by
        obtain ⟨c, cs, hshow, _⟩ := showInt_head u.2
        cases hu : u.1 <;> simp [tokens_text_cons, hu, hshow]
      rw [hne, ih _ _ _ _ hsep2 hafter]
      simp [tokens_text_cons, tokens_row]

/-- The row loop at the end of a line: the line terminator is extracted and
the row is returned with the stream good. -/
theorem readln_row_loop_eol (fuel : Nat) (cons : List Char) (row : Matrix_row CInt)
    (trail rest : List Char) (htrail : HwsOnly trail) :
    readln_row_loop (fuel + 1) ⟨cons, trail ++ '\n' :: rest, false, false, false⟩ row
      = (⟨'\n' :: (trail.reverse ++ cons), rest, false, false, false⟩, row) := by
  have hskip := skiphws_stop trail cons '\n' rest htrail (by decide) (by decide)
  rw [readln_row_loop_succ]
  simp only [hskip, IStream.fail, IStream.peek, IStream.good, IStream.ignore]
  simp

/-- The row loop at the end of input, possibly after spaces and tabs: the
stream fails and the row is returned as it is. -/
theorem readln_row_loop_eof (fuel : Nat) (cons : List Char) (row : Matrix_row CInt)
    (trail : List Char) (htrail : HwsOnly trail) :
    readln_row_loop (fuel + 1) ⟨cons, trail, false, false, false⟩ row
      = (⟨trail.reverse ++ cons, [], false, true, false⟩, row) := by
  rw [readln_row_loop_succ]
  simp [skiphws_eof trail cons htrail, IStream.fail]

/-- The row loop on a stream that is not good: the stream fails and the row is
returned as it is. -/
theorem readln_row_loop_not_good (fuel : Nat) (is : IStream) (row : Matrix_row CInt)
    (h : is.good = false) :
    readln_row_loop (fuel + 1) is row = ({ is with eofbit := false, failbit := true }, row) := by
  rw [readln_row_loop_succ]
  simp [skiphws_not_good is h, IStream.fail]

/-- A failed extraction leaves the stream failed. -/
theorem extract_int_none_fail (is : IStream) (h : (extract_int is).2 = none) :
    (extract_int is).1.fail = true := by
  revert h
  unfold extract_int
  simp only [IStream.fail]
  split
  · simp
  · split
    · simp
    · split
      · simp
      · split
        · simp
        · simp

/-- Whether an extraction from a good stream succeeds, and with which value,
depends on the unread text only. -/
theorem extract_int_value_indep (cons cons2 text : List Char) :
    (extract_int ⟨cons, text, false, false, false⟩).2
      = (extract_int ⟨cons2, text, false, false, false⟩).2 := by
  unfold extract_int
  simp only [IStream.good]
  split
  · rfl
  · split
    · rfl
    · split
      · rfl
      · split <;> rfl

/-- The row loop in front of a token the extraction rejects: the stream fails
and the row is returned as it is. -/
theorem readln_row_loop_bad (fuel : Nat) (cons : List Char) (row : Matrix_row CInt)
    (sep bad : List Char) (hsep : HwsOnly sep) (hbad : Unparsable bad) :
    (readln_row_loop (fuel + 1) ⟨cons, sep ++ bad, false, false, false⟩ row).1.fail = true ∧
      (readln_row_loop (fuel + 1) ⟨cons, sep ++ bad, false, false, false⟩ row).2 = row := by
  obtain ⟨⟨c, hc, hc1, hc2, hc3⟩, hnone⟩ := hbad
  cases bad with
  | nil => simp at hc
  | cons b tail =>
    simp only [List.head?_cons, Option.mem_def, Option.some.injEq] at hc
    subst hc
    have hskip := skiphws_stop sep cons b tail hsep hc1 hc2
    have hn : (extract_int ⟨sep.reverse ++ cons, b :: tail, false, false, false⟩).2 = none := by
      rw [extract_int_value_indep _ [] _]; exact hnone
    have hf := extract_int_none_fail _ hn
    rw [readln_row_loop_succ]
    simp only [IStream.fail, hskip, Bool.or_self, Bool.false_eq_true, ↓reduceIte, IStream.peek,
      IStream.good, Bool.not_false, Bool.and_self, Bool.not_true, Option.some.injEq, hc3,
      Bool.or_eq_true]
    simp only [IStream.fail, Bool.or_eq_true] at hf
    generalize extract_int ⟨sep.reverse ++ cons, b :: tail, false, false, false⟩ = x at hn hf
    obtain ⟨is2, val⟩ := x
    simp only at hn hf
    subst hn
    exact ⟨hf, rfl⟩

/-! ## Whole lines -/

theorem tokens_text_length (toks : List Token) : toks.length ≤ (tokens_text toks).length := by
  induction toks with
  | nil => simp
  | cons t ts ih =>
    have := showInt_length_pos t.2
    simp only [tokens_text_cons, List.length_cons, List.length_append]
    omega

theorem HwsOnly.noDigitHead {trail : List Char} (h : HwsOnly trail) {after : List Char}
    (hafter : NoDigitHead after) : NoDigitHead (trail ++ after) := by
  cases trail with
  | nil => simpa using hafter
  | cons w ws => exact h.noDigitHead_append (List.cons_ne_nil _ _) after

theorem noDigitHead_nil : NoDigitHead [] := by
  intro c hc; simp at hc

theorem noDigitHead_cons {c : Char} (h : isdigit c = false) (t : List Char) :
    NoDigitHead (c :: t) := by
  intro d hd
  simp only [List.head?_cons, Option.mem_def, Option.some.injEq] at hd
  subst hd; exact h

/-- The row `readln` on a line of tokens: the stream stays good, the row holds
the values of the tokens, and exactly the line is extracted. -/
theorem readln_row_line (cons : List Char) (toks : List Token) (trail rest : List Char)
    (row0 : Matrix_row CInt) (hsep : SepsOk toks) (htrail : HwsOnly trail) :
    readln_row ⟨cons, line_text toks trail ++ rest, false, false, false⟩ row0
      = (⟨(line_text toks trail).reverse ++ cons, rest, false, false, false⟩, tokens_row toks) := by
  have hlen := tokens_text_length toks
  have htext : line_text toks trail ++ rest = tokens_text toks ++ (trail ++ '\n' :: rest) := by
    simp [line_text]
  obtain ⟨f, hf⟩ : ∃ f, (line_text toks trail ++ rest).length + 1 = toks.length + (f + 1) :=
    ⟨(line_text toks trail ++ rest).length - toks.length, by
      rw [htext]; simp only [List.length_append]; omega⟩
  unfold readln_row
  simp only [hf]
  rw [htext, readln_row_loop_tokens toks _ cons [] _ hsep
    (htrail.noDigitHead (noDigitHead_cons (by decide) rest))]
  have hne : (trail ++ '\n' :: rest).isEmpty = false := by cases trail <;> rfl
  rw [hne, Bool.and_false, readln_row_loop_eol _ _ _ trail rest htrail]
  simp [line_text]

/-- The matrix loop does not read the row variable it is entered with. -/
theorem readln_matrix_loop_row_indep (fuel : Nat) (is : IStream) (row row2 : Matrix_row CInt)
    (matrix : Matrix CInt) :
    readln_matrix_loop fuel is row matrix = readln_matrix_loop fuel is row2 matrix := by
  cases fuel <;> rfl

theorem readln_matrix_loop_succ (fuel : Nat) (is : IStream) (row : Matrix_row CInt)
    (matrix : Matrix CInt) :
    readln_matrix_loop (fuel + 1) is row matrix =
      (let r := readln_row is row
      if !r.1.fail && !r.2.isEmpty then readln_matrix_loop fuel r.1 r.2 (matrix ++ [r.2])
      else (r.1, matrix)) := rfl

theorem lines_text_cons (l : Line) (ls : List Line) :
    lines_text (l :: ls) = line_text l.1 l.2 ++ lines_text ls := by
  simp [lines_text, List.flatMap_cons]

theorem lines_text_length (lines : List Line) : lines.length ≤ (lines_text lines).length := by
  induction lines with
  | nil => simp
  | cons l ls ih =>
    simp only [lines_text_cons, line_text, List.length_cons, List.length_append,
      List.length_nil]
    omega

/-- The matrix loop on a sequence of well-formed non-empty lines appends their
rows and stops, with the stream good, in front of what follows them. -/
theorem readln_matrix_loop_lines (lines : List Line) : ∀ (fuel : Nat) (cons : List Char)
    (row : Matrix_row CInt) (matrix : Matrix CInt) (after : List Char), LinesOk lines →
    readln_matrix_loop (lines.length + fuel) ⟨cons, lines_text lines ++ after, false, false, false⟩
        row matrix
      = readln_matrix_loop fuel ⟨(lines_text lines).reverse ++ cons, after, false, false, false⟩
          [] (matrix ++ lines_rows lines) := by
  induction lines with
  | nil =>
    intro fuel cons row matrix after _
    simpa [lines_text, lines_rows] using readln_matrix_loop_row_indep fuel _ row [] matrix
  | cons l ls ih =>
    intro fuel cons row matrix after hok
    obtain ⟨hne, hsep, htrail⟩ := hok l (List.mem_cons_self _ _)
    have hok2 : LinesOk ls := fun x hx => hok x (List.mem_cons_of_mem _ hx)
    have hfuel : (l :: ls).length + fuel = (ls.length + fuel) + 1 := by
      simp only [List.length_cons]; omega
    have hrow : (tokens_row l.1).isEmpty = false := by
      cases h : l.1 with
      | nil => exact absurd h hne
      | cons _ _ => rfl
    rw [hfuel, readln_matrix_loop_succ, lines_text_cons, List.append_assoc,
      readln_row_line cons l.1 l.2 _ row hsep htrail]
    simp only [IStream.fail, hrow, Bool.or_self, Bool.not_false, Bool.and_self, if_true]
    rw [ih _ _ _ _ _ hok2]
    simp [lines_rows]

/-! ## Construction: lemmas -/

section Construction

variable {T : Type}

/-- A loop that overwrites rows with rows of length `n` leaves the number of
rows unchanged, and every row it has written has length `n`. -/
theorem foldl_set_lengths {α : Type} (n : Nat) (idx : α → Nat)
    (g : Matrix T → α → Matrix_row T) (hg : ∀ r a, (g r a).length = n) :
    ∀ (as : List α) (res0 : Matrix T),
      (as.foldl (fun r a => r.set (idx a) (g r a)) res0).length = res0.length ∧
      ∀ (i : Nat) (row : Matrix_row T),
        (as.foldl (fun r a => r.set (idx a) (g r a)) res0)[i]? = some row →
        row.length = n ∨ (res0[i]? = some row ∧ i ∉ as.map idx) := by
  intro as
  induction as with
  | nil => intro res0; exact ⟨rfl, fun i row h => Or.inr ⟨h, by simp⟩⟩
  | cons a as ih =>
    intro res0
    obtain ⟨hlen, hrows⟩ := ih (res0.set (idx a) (g res0 a))
    simp only [List.foldl_cons]
    refine ⟨by rw [hlen, List.length_set], fun i row hi => ?_⟩
    rcases hrows i row hi with h | ⟨h1, h2⟩
    · exact Or.inl h
    · by_cases hia : idx a = i
      · subst hia
        rw [List.getElem?_set] at h1
        simp only [if_true] at h1
        split at h1
        · exact Or.inl ((Option.some.inj h1) ▸ hg res0 a)
        · cases h1
      · rw [List.getElem?_set_ne hia] at h1
        refine Or.inr ⟨h1, ?_⟩
        simp only [List.map_cons, List.mem_cons, not_or]
        exact ⟨fun h => hia h.symm, h2⟩

/-- A loop that overwrites every row of `size` empty rows with rows of length
`n` produces a matrix whose rows all have length `n`. -/
theorem foldl_set_all_lengths {α : Type} (n size : Nat) (idx : α → Nat)
    (g : Matrix T → α → Matrix_row T) (hg : ∀ r a, (g r a).length = n)
    (as : List α) (hall : ∀ i, i < size → i ∈ as.map idx) :
    ∀ row ∈ as.foldl (fun r a => r.set (idx a) (g r a)) (List.replicate size []),
      row.length = n := by
  intro row hrow
  obtain ⟨hlen, hrows⟩ := foldl_set_lengths n idx g hg as (List.replicate size [])
  obtain ⟨i, hi, hget⟩ := List.getElem_of_mem hrow
  have hget2 : (as.foldl (fun r a => r.set (idx a) (g r a)) (List.replicate size []))[i]?
      = some row := by rw [List.getElem?_eq_getElem hi, hget]
  rcases hrows i row hget2 with h | ⟨_, h⟩
  · exact h
  · rw [hlen, List.length_replicate] at hi
    exact absurd (hall i hi) h

theorem diagonal_step_row_length (dflt : T) (size : Nat) (result : Matrix T) (i : Nat)
    (value : T) : ((resize dflt (result.getD i []) size).set i value).length = size := by
  rw [List.length_set, resize_length]

theorem matrix_of_array_lengths {N M : Nat} (arr : Fin N → Fin M → T) :
    ∀ row ∈ matrix_of_array arr, row.length = M := by
  unfold matrix_of_array
  apply foldl_set_all_lengths M N (fun i : Fin N => i.val) (fun _ i => List.ofFn (arr i))
    (fun _ _ => List.length_ofFn _)
  intro i hi
  exact List.mem_map.mpr ⟨⟨i, hi⟩, List.mem_finRange _, rfl⟩

theorem matrix_fill_lengths (rows cols : Nat) (value : T) :
    ∀ row ∈ matrix_fill rows cols value, row.length = cols := by
  intro row hrow
  unfold matrix_fill at hrow
  obtain ⟨_, _, rfl⟩ := List.mem_map.mp hrow
  exact List.length_replicate _ _

theorem diagonal_lengths (dflt : T) (size : Nat) (value : T) :
    ∀ row ∈ diagonal dflt size value, row.length = size := by
  unfold diagonal diagonal_step
  apply foldl_set_all_lengths size size (fun i : Nat => i)
    (fun r i => (resize dflt (r.getD i []) size).set i value)
    (fun r i => diagonal_step_row_length dflt size r i value)
  intro i hi
  simpa using hi

theorem diagonal_range_lengths (dflt : T) (values : List T) :
    ∀ row ∈ diagonal_range dflt values, row.length = values.length := by
  unfold diagonal_range diagonal_step
  apply foldl_set_all_lengths values.length values.length (fun p : Nat × T => p.1)
    (fun r p => (resize dflt (r.getD p.1 []) values.length).set p.1 p.2)
    (fun r p => diagonal_step_row_length dflt values.length r p.1 p.2)
  intro i hi
  rw [List.enum_map_fst]
  exact List.mem_range.mpr hi

end Construction

/-! ## The matrix `readln` on lines followed by a stopping row -/

/-- The matrix loop stops, without appending, when the row `readln` fails or
returns an empty row. -/
theorem readln_matrix_loop_stop (fuel : Nat) (is : IStream) (row : Matrix_row CInt)
    (matrix : Matrix CInt)
    (h : (readln_row is row).1.fail = true ∨ (readln_row is row).2 = []) :
    readln_matrix_loop (fuel + 1) is row matrix = ((readln_row is row).1, matrix) := by
  rw [readln_matrix_loop_succ]
  rcases h with h | h <;> simp [h]

/-- The matrix `readln` on well-formed non-empty lines followed by a text on
which the row `readln` fails or returns an empty row: the rows of the lines,
rectangularized, and the stream as that last row `readln` leaves it. -/
theorem readln_matrix_lines_then (cons : List Char) (lines : List Line) (after : List Char)
    (matrix0 : Matrix CInt) (hok : LinesOk lines)
    (hstop : (readln_row ⟨(lines_text lines).reverse ++ cons, after, false, false, false⟩ []).1.fail
        = true ∨
      (readln_row ⟨(lines_text lines).reverse ++ cons, after, false, false, false⟩ []).2 = []) :
    readln_matrix ⟨cons, lines_text lines ++ after, false, false, false⟩ matrix0
      = ((readln_row ⟨(lines_text lines).reverse ++ cons, after, false, false, false⟩ []).1,
          force_rectangularity CInt.zero (lines_rows lines)) := by
  have hlen := lines_text_length lines
  obtain ⟨f, hf⟩ : ∃ f, (lines_text lines ++ after).length + 1 = lines.length + (f + 1) :=
    ⟨(lines_text lines ++ after).length - lines.length, by
      simp only [List.length_append]; omega⟩
  unfold readln_matrix
  simp only [hf]
  rw [readln_matrix_loop_lines lines _ cons [] [] after hok,
    readln_matrix_loop_stop _ _ _ _ hstop]
  simp

/-- Lines followed by a blank line: the stream stays good, the blank line is
extracted, what follows it is left unread. -/
theorem readln_matrix_blank (cons : List Char) (lines : List Line) (blank rest : List Char)
    (matrix0 : Matrix CInt) (hok : LinesOk lines) (hblank : HwsOnly blank) :
    readln_matrix ⟨cons, lines_text lines ++ (blank ++ '\n' :: rest), false, false, false⟩ matrix0
      = (⟨'\n' :: (blank.reverse ++ ((lines_text lines).reverse ++ cons)), rest,
            false, false, false⟩,
          force_rectangularity CInt.zero (lines_rows lines)) := by
  have hrow := readln_row_line ((lines_text lines).reverse ++ cons) [] blank rest []
    ⟨by simp, by simp⟩ hblank
  simp only [line_text, tokens_text, List.flatMap_nil, List.nil_append, List.append_assoc,
    List.singleton_append, tokens_row, List.map_nil] at hrow
  rw [readln_matrix_lines_then cons lines _ matrix0 hok (Or.inr (by rw [hrow])), hrow]
  simp

/-- The row `readln` on tokens followed by spaces and tabs and the end of
input: the stream fails and the row holds the values of the tokens. -/
theorem readln_row_eof (cons : List Char) (toks : List Token) (trail : List Char)
    (row0 : Matrix_row CInt) (hsep : SepsOk toks) (htrail : HwsOnly trail) :
    (readln_row ⟨cons, tokens_text toks ++ trail, false, false, false⟩ row0).1.fail = true ∧
      (readln_row ⟨cons, tokens_text toks ++ trail, false, false, false⟩ row0).2
        = tokens_row toks := by
  have hlen := tokens_text_length toks
  obtain ⟨f, hf⟩ : ∃ f, (tokens_text toks ++ trail).length + 1 = toks.length + (f + 1) :=
    ⟨(tokens_text toks ++ trail).length - toks.length, by
      simp only [List.length_append]; omega⟩
  have hnd : NoDigitHead trail := by
    simpa using htrail.noDigitHead noDigitHead_nil
  unfold readln_row
  simp only [hf]
  rw [readln_row_loop_tokens toks _ cons [] trail hsep hnd]
  cases he : (!toks.isEmpty && trail.isEmpty) with
  | false =>
    rw [readln_row_loop_eof _ _ _ trail htrail]
    simp [IStream.fail]
  | true =>
    rw [readln_row_loop_not_good _ _ _ (by simp [IStream.good])]
    simp [IStream.fail]

/-- The row `readln` on tokens followed by a token the extraction rejects: the
stream fails and the row holds the values of the tokens before it. -/
theorem readln_row_bad (cons : List Char) (toks : List Token) (sep bad : List Char)
    (row0 : Matrix_row CInt) (hsep : SepsOk toks) (hs : HwsOnly sep) (hbad : Unparsable bad)
    (hnd : toks = [] ∨ NoDigitHead (sep ++ bad)) :
    (readln_row ⟨cons, tokens_text toks ++ (sep ++ bad), false, false, false⟩ row0).1.fail
        = true ∧
      (readln_row ⟨cons, tokens_text toks ++ (sep ++ bad), false, false, false⟩ row0).2
        = tokens_row toks := by
  have hbne : (sep ++ bad).isEmpty = false := by
    obtain ⟨⟨c, hc, _⟩, _⟩ := hbad
    cases bad with
    | nil => simp at hc
    | cons b t => cases sep <;> rfl
  unfold readln_row
  rcases hnd with rfl | hnd
  · simpa [tokens_text, tokens_row] using readln_row_loop_bad _ cons [] sep bad hs hbad
  · have hlen := tokens_text_length toks
    obtain ⟨f, hf⟩ :
        ∃ f, (tokens_text toks ++ (sep ++ bad)).length + 1 = toks.length + (f + 1) :=
      ⟨(tokens_text toks ++ (sep ++ bad)).length - toks.length, by
        simp only [List.length_append]; omega⟩
    simp only [hf]
    rw [readln_row_loop_tokens toks _ cons [] _ hsep hnd, hbne, Bool.and_false]
    simpa using readln_row_loop_bad f _ (tokens_row toks) sep bad hs hbad

/-! ## The written form of a matrix as lines of tokens -/

theorem tokens_row_written (row : Matrix_row CInt) : tokens_row (written_tokens row) = row := by
  simp [tokens_row, written_tokens]

theorem tokens_text_written (row : Matrix_row CInt) :
    tokens_text (written_tokens row) = row.flatMap (fun x => ' ' :: showInt x) := by
  induction row with
  | nil => rfl
  | cons x xs ih =>
    have : written_tokens (x :: xs) = ([' '], x) :: written_tokens xs := rfl
    rw [this, tokens_text_cons, ih]
    simp

theorem sepsOk_written (row : Matrix_row CInt) : SepsOk (written_tokens row) := by
  constructor
  · intro t ht
    obtain ⟨x, _, rfl⟩ := List.mem_map.mp ht
    intro c hc
    exact Or.inl (List.mem_singleton.mp hc)
  · intro t ht
    obtain ⟨x, _, rfl⟩ := List.mem_map.mp (List.mem_of_mem_tail ht)
    exact List.cons_ne_nil _ _

theorem line_text_written (row : Matrix_row CInt) :
    line_text (written_line row).1 (written_line row).2 = row_text showInt row := by
  simp [written_line, line_text, tokens_text_written, row_text]

theorem lines_text_written (matrix : Matrix CInt) :
    lines_text (matrix.map written_line) = matrix.flatMap (row_text showInt) := by
  induction matrix with
  | nil => rfl
  | cons r rs ih =>
    rw [List.map_cons, lines_text_cons, ih, line_text_written, List.flatMap_cons]

theorem lines_rows_written (matrix : Matrix CInt) :
    lines_rows (matrix.map written_line) = matrix := by
  induction matrix with
  | nil => rfl
  | cons r rs ih =>
    simp only [lines_rows, List.map_cons, List.map_map] at ih ⊢
    rw [ih]
    simp [written_line, tokens_row_written]

theorem linesOk_written (matrix : Matrix CInt) (h : ∀ row ∈ matrix, row ≠ []) :
    LinesOk (matrix.map written_line) := by
  intro l hl
  obtain ⟨r, hr, rfl⟩ := List.mem_map.mp hl
  refine ⟨?_, sepsOk_written r, fun c hc => by cases hc⟩
  have := h r hr
  cases r with
  | nil => exact absurd rfl this
  | cons x xs => exact List.cons_ne_nil _ _

/-- The matrix `readln` on the text the matrix `writeln` produces for a matrix
without empty rows, followed by any text: the stream stays good, the matrix is
read back rectangularized, and the text that follows is left unread. -/
theorem readln_writeln (matrix : Matrix CInt) (h : ∀ row ∈ matrix, row ≠ [])
    (rest : List Char) (matrix0 : Matrix CInt) :
    readln_matrix (IStream.ofText (writeln_matrix showInt [] matrix ++ rest)) matrix0
      = (⟨(matrix_text showInt matrix).reverse, rest, false, false, false⟩,
          force_rectangularity CInt.zero matrix) := by
  have hb := readln_matrix_blank [] (matrix.map written_line) [] rest matrix0
    (linesOk_written matrix h) (fun c hc => by cases hc)
  rw [lines_text_written, lines_rows_written] at hb
  rw [writeln_matrix_eq, List.nil_append, matrix_text, IStream.ofText]
  simp only [List.append_assoc, List.singleton_append, List.nil_append] at hb ⊢
  rw [hb]
  simp

/-! ## Plain lines: elements separated by single spaces -/

theorem intercalate_space (x : List Char) (xs : List (List Char)) :
    List.intercalate [' '] (x :: xs) = x ++ xs.flatMap (fun y => ' ' :: y) := by
  induction xs generalizing x with
  | nil => simp [List.intercalate]
  | cons y ys ih =>
    have h := ih y
    simp only [List.intercalate, List.intersperse, List.flatten_cons, List.flatMap_cons]
      at h ⊢
    rw [h]
    simp

theorem tokens_text_plain (row : Matrix_row CInt) :
    tokens_text (plain_tokens row) = List.intercalate [' '] (row.map showInt) := by
  cases row with
  | nil => rfl
  | cons x xs =>
    rw [List.map_cons, intercalate_space, plain_tokens, tokens_text_cons, tokens_text_written,
      List.flatMap_map]
    simp

theorem tokens_row_plain (row : Matrix_row CInt) : tokens_row (plain_tokens row) = row := by
  cases row with
  | nil => rfl
  | cons x xs =>
    have := tokens_row_written xs
    simp only [tokens_row] at this ⊢
    simp [plain_tokens, this]

theorem sepsOk_plain (row : Matrix_row CInt) : SepsOk (plain_tokens row) := by
  cases row with
  | nil => exact ⟨by simp [plain_tokens], by simp [plain_tokens]⟩
  | cons x xs =>
    obtain ⟨h1, _⟩ := sepsOk_written xs
    constructor
    · intro t ht
      rcases List.mem_cons.mp ht with rfl | ht
      · intro c hc; cases hc
      · exact h1 t ht
    · intro t ht
      obtain ⟨y, _, rfl⟩ := List.mem_map.mp ht
      exact List.cons_ne_nil _ _

theorem lines_text_plain (matrix : Matrix CInt) :
    lines_text (matrix.map plain_line) = matrix.flatMap plain_row_text := by
  induction matrix with
  | nil => rfl
  | cons r rs ih =>
    rw [List.map_cons, lines_text_cons, ih, List.flatMap_cons]
    simp [plain_line, line_text, tokens_text_plain, plain_row_text]

theorem lines_rows_plain (matrix : Matrix CInt) :
    lines_rows (matrix.map plain_line) = matrix := by
  induction matrix with
  | nil => rfl
  | cons r rs ih =>
    simp only [lines_rows, List.map_cons, List.map_map] at ih ⊢
    rw [ih]
    simp [plain_line, tokens_row_plain]

theorem linesOk_plain (matrix : Matrix CInt) (h : ∀ row ∈ matrix, row ≠ []) :
    LinesOk (matrix.map plain_line) := by
  intro l hl
  obtain ⟨r, hr, rfl⟩ := List.mem_map.mp hl
  refine ⟨?_, sepsOk_plain r, fun c hc => by cases hc⟩
  have := h r hr
  cases r with
  | nil => exact absurd rfl this
  | cons x xs => exact List.cons_ne_nil _ _

/-! ## Characters that cannot start an integer -/

theorem takeSign_of_not_sign {c : Char} (t : List Char) (h1 : c ≠ '-') (h2 : c ≠ '+') :
    takeSign (c :: t) = ([], false, c :: t) := by
  unfold takeSign
  split
  · rename_i heq; exact absurd (List.cons.inj heq).1 h1
  · rename_i heq; exact absurd (List.cons.inj heq).1 h2
  · rfl

/-- The extraction fails on a character that cannot start an integer, and
extracts nothing. -/
theorem extract_int_cannot_start (cons : List Char) (c : Char) (t : List Char)
    (h : CannotStartInt c) :
    extract_int ⟨cons, c :: t, false, false, false⟩
      = (⟨cons, c :: t, false, true, false⟩, none) := by
  obtain ⟨hsp, hd, hplus, hminus⟩ := h
  have h1 : (c :: t).takeWhile isspace = [] := by simp [List.takeWhile_cons, hsp]
  have h2 : (c :: t).dropWhile isspace = c :: t := by simp [List.dropWhile_cons, hsp]
  have h3 : (c :: t).takeWhile isdigit = [] := by simp [List.takeWhile_cons, hd]
  have h4 : (c :: t).dropWhile isdigit = c :: t := by simp [List.dropWhile_cons, hd]
  simp only [extract_int, IStream.good, h1, h2, takeSign_of_not_sign t hminus hplus, h3, h4]
  simp

theorem unparsable_of_cannot_start {c : Char} (t : List Char) (h : CannotStartInt c) :
    Unparsable (c :: t) := by
  refine ⟨⟨c, rfl, ?_, ?_, ?_⟩, ?_⟩
  · intro hc; subst hc; exact absurd h.1 (by decide)
  · intro hc; subst hc; exact absurd h.1 (by decide)
  · intro hc; subst hc; exact absurd h.1 (by decide)
  · rw [IStream.ofText, extract_int_cannot_start [] c t h]

/-! ## The iteration bounds are never reached

Each loop of the embedding carries a bound on its number of iterations.  The
lemmas of this section show that the bound `rest.length + 1` used by `skiphws`,
by the row `readln` and by the matrix `readln` is never exhausted: a larger
bound gives the same result. -/

theorem skiphws_loop_succ (fuel : Nat) (is : IStream) :
    skiphws_loop (fuel + 1) is =
      (match is.get with
      | (is1, some ch) => if ch == ' ' || ch == '\t' then skiphws_loop fuel is1 else is1
      | (is1, none) => is1) := rfl

theorem get_not_good (is : IStream) (h : is.good = false) :
    is.get = ({ is with failbit := true }, none) := by
  simp [IStream.get, h]

theorem get_nil (is : IStream) (h : is.good = true) (hrest : is.rest = []) :
    is.get = ({ is with eofbit := true, failbit := true }, none) := by
  simp [IStream.get, h, hrest]

theorem get_cons (is : IStream) (h : is.good = true) (c : Char) (cs : List Char)
    (hrest : is.rest = c :: cs) :
    is.get = ({ is with consumed := c :: is.consumed, rest := cs }, some c) := by
  simp [IStream.get, h, hrest]

theorem skiphws_loop_fuel_step (fuel : Nat) : ∀ (is : IStream), is.rest.length < fuel →
    skiphws_loop (fuel + 1) is = skiphws_loop fuel is := by
  induction fuel with
  | zero => intro is h; omega
  | succ n ih =>
    intro is h
    rw [skiphws_loop_succ (n + 1), skiphws_loop_succ n]
    cases hg : is.good with
    | false => rw [get_not_good is hg]
    | true =>
      cases hrest : is.rest with
      | nil => rw [get_nil is hg hrest]
      | cons c cs =>
        rw [get_cons is hg c cs hrest]
        simp only
        rw [ih _ (by rw [hrest] at h; simp only [List.length_cons] at h; simp only; omega)]

theorem skiphws_loop_fuel (is : IStream) (extra : Nat) :
    skiphws_loop (is.rest.length + 1 + extra) is = skiphws_loop (is.rest.length + 1) is := by
  induction extra with
  | zero => rfl
  | succ k ih =>
    rw [← ih, ← Nat.add_assoc]
    exact skiphws_loop_fuel_step _ is (by omega)

/-- What the loop of `skiphws` leaves: a stream with `failbit` set and no more
unread text than before, or a good stream with a character to put back and
less unread text than before. -/
theorem skiphws_loop_spec (fuel : Nat) : ∀ (is : IStream), is.rest.length < fuel →
    ((skiphws_loop fuel is).failbit = true ∧
        (skiphws_loop fuel is).rest.length ≤ is.rest.length) ∨
      ((skiphws_loop fuel is).good = true ∧ (skiphws_loop fuel is).consumed ≠ [] ∧
        (skiphws_loop fuel is).rest.length + 1 ≤ is.rest.length) := by
  induction fuel with
  | zero => intro is h; omega
  | succ n ih =>
    intro is h
    rw [skiphws_loop_succ]
    cases hg : is.good with
    | false =>
      rw [get_not_good is hg]
      left; simp
    | true =>
      cases hrest : is.rest with
      | nil =>
        rw [get_nil is hg hrest]
        left; simp [hrest]
      | cons c cs =>
        rw [get_cons is hg c cs hrest]
        rw [hrest] at h
        simp only [List.length_cons] at h ⊢
        split
        · rcases ih ⟨c :: is.consumed, cs, is.eofbit, is.failbit, is.badbit⟩
            (by simp only; omega) with h1 | h1
          · left; exact ⟨h1.1, by have := h1.2; simp only at this; omega⟩
          · right; exact ⟨h1.1, h1.2.1, by have := h1.2.2; simp only at this; omega⟩
        · right
          refine ⟨?_, by simp, by simp⟩
          simpa [IStream.good] using hg

theorem unget_rest_le (r : IStream) (n : Nat)
    (h : (r.failbit = true ∧ r.rest.length ≤ n) ∨
      (r.good = true ∧ r.consumed ≠ [] ∧ r.rest.length + 1 ≤ n)) :
    r.unget.rest.length ≤ n := by
  unfold IStream.unget
  simp only
  split
  · rcases h with h | h <;> simp only <;> omega
  · split
    · rcases h with h | h <;> simp only <;> omega
    · rename_i hgood _ c cs hcons
      rcases h with h | h
      · simp [IStream.good, h.1] at hgood
      · simp only [List.length_cons]; omega

theorem skiphws_rest_le (is : IStream) : (skiphws is).rest.length ≤ is.rest.length :=
  unget_rest_le _ _ (skiphws_loop_spec (is.rest.length + 1) is (Nat.lt_succ_self _))

theorem takeSign_length_le (l : List Char) : (takeSign l).2.2.length ≤ l.length := by
  unfold takeSign
  split <;> simp

theorem dropWhile_length_le (p : Char → Bool) (l : List Char) :
    (l.dropWhile p).length ≤ l.length := by
  have := congrArg List.length (List.takeWhile_append_dropWhile p l)
  rw [List.length_append] at this
  omega

theorem dropWhile_length_lt (p : Char → Bool) (l : List Char)
    (h : (l.takeWhile p).isEmpty = false) : (l.dropWhile p).length < l.length := by
  have := congrArg List.length (List.takeWhile_append_dropWhile p l)
  rw [List.length_append] at this
  have hpos : 0 < (l.takeWhile p).length := by
    cases hl : l.takeWhile p with
    | nil => rw [hl] at h; cases h
    | cons _ _ => simp
  omega

/-- A successful extraction extracts at least one character. -/
theorem extract_int_rest_lt (is : IStream) (h : (extract_int is).2.isSome = true) :
    (extract_int is).1.rest.length < is.rest.length := by
  revert h
  unfold extract_int
  dsimp only
  split
  · simp
  · split
    · simp
    · split
      · simp
      · rename_i hds
        split
        · intro _
          simp only
          have h1 := dropWhile_length_le isspace is.rest
          have h2 := takeSign_length_le (is.rest.dropWhile isspace)
          have h3 := dropWhile_length_lt isdigit (takeSign (is.rest.dropWhile isspace)).2.2
            (by simpa using hds)
          omega
        · simp

theorem extract_int_rest_le (is : IStream) :
    (extract_int is).1.rest.length ≤ is.rest.length := by
  have h1 := dropWhile_length_le isspace is.rest
  have h2 := takeSign_length_le (is.rest.dropWhile isspace)
  have h3 := dropWhile_length_le isdigit (takeSign (is.rest.dropWhile isspace)).2.2
  unfold extract_int
  dsimp only
  split
  · simp
  · split
    · simp only; omega
    · split
      · simp only; omega
      · split
        · simp only; omega
        · simp only; omega

theorem peek_rest (is : IStream) : is.peek.1.rest = is.rest := by
  unfold IStream.peek
  split
  · rfl
  · split <;> simp_all

theorem ignore_rest_le (is : IStream) : is.ignore.rest.length ≤ is.rest.length := by
  unfold IStream.ignore
  split
  · simp
  · split
    · simp
    · rename_i h; simp [h]

theorem readln_row_loop_fuel_step (fuel : Nat) : ∀ (is : IStream) (row : Matrix_row CInt),
    is.rest.length < fuel → readln_row_loop (fuel + 1) is row = readln_row_loop fuel is row := by
  induction fuel with
  | zero => intro is row h; omega
  | succ n ih =>
    intro is row h
    rw [readln_row_loop_succ (n + 1), readln_row_loop_succ n]
    dsimp only
    split
    · rfl
    · split
      · rfl
      · have hlt := extract_int_rest_lt (skiphws is).peek.1
        have hle := skiphws_rest_le is
        rw [peek_rest] at hlt
        generalize extract_int (skiphws is).peek.1 = x at hlt ⊢
        obtain ⟨is2, val⟩ := x
        cases val with
        | none => rfl
        | some item =>
          simp only
          exact ih is2 _ (by have := hlt rfl; simp only at this; omega)

/-- The row loop never gives back more unread text than it was given, and gives
back less when it has appended an element. -/
theorem readln_row_loop_rest (fuel : Nat) : ∀ (is : IStream) (row : Matrix_row CInt),
    (readln_row_loop fuel is row).1.rest.length ≤ is.rest.length ∧
      (row.length < (readln_row_loop fuel is row).2.length →
        (readln_row_loop fuel is row).1.rest.length < is.rest.length) := by
  induction fuel with
  | zero => intro is row; exact ⟨Nat.le_refl _, fun h => absurd h (Nat.lt_irrefl _)⟩
  | succ n ih =>
    intro is row
    rw [readln_row_loop_succ]
    dsimp only
    have hle := skiphws_rest_le is
    split
    · exact ⟨hle, fun h => absurd h (Nat.lt_irrefl _)⟩
    · split
      · have := ignore_rest_le (skiphws is).peek.1
        rw [peek_rest] at this
        exact ⟨Nat.le_trans this hle, fun h => absurd h (Nat.lt_irrefl _)⟩
      · have hlt := extract_int_rest_lt (skiphws is).peek.1
        have hle2 := extract_int_rest_le (skiphws is).peek.1
        rw [peek_rest] at hlt hle2
        generalize extract_int (skiphws is).peek.1 = x at hlt hle2 ⊢
        obtain ⟨is2, val⟩ := x
        cases val with
        | none =>
          simp only at hle2 ⊢
          exact ⟨Nat.le_trans hle2 hle, fun h => absurd h (Nat.lt_irrefl _)⟩
        | some item =>
          simp only at hlt ⊢
          have h2 := hlt rfl
          have h3 := (ih is2 (row ++ [item])).1
          exact ⟨by omega, fun _ => by omega⟩

theorem readln_matrix_loop_fuel_step (fuel : Nat) :
    ∀ (is : IStream) (row : Matrix_row CInt) (matrix : Matrix CInt), is.rest.length < fuel →
      readln_matrix_loop (fuel + 1) is row matrix = readln_matrix_loop fuel is row matrix := by
  induction fuel with
  | zero => intro is row matrix h; omega
  | succ n ih =>
    intro is row matrix h
    rw [readln_matrix_loop_succ (n + 1), readln_matrix_loop_succ n]
    dsimp only
    split
    · rename_i hc
      apply ih
      have hne : (readln_row is row).2 ≠ [] := by
        intro he; rw [he] at hc; simp at hc
      have := (readln_row_loop_rest (is.rest.length + 1) is []).2
        (by simpa using List.length_pos.mpr hne)
      exact Nat.lt_of_lt_of_le this (Nat.le_of_lt_succ h)
    · rfl

/-- A larger iteration bound gives the row `readln` the same result. -/
theorem readln_row_fuel (is : IStream) (row : Matrix_row CInt) (extra : Nat) :
    readln_row_loop (is.rest.length + 1 + extra) is [] = readln_row is row := by
  induction extra with
  | zero => rfl
  | succ k ih =>
    rw [← ih, ← Nat.add_assoc]
    exact readln_row_loop_fuel_step _ is [] (by omega)

/-- A larger iteration bound gives the matrix `readln` the same result. -/
theorem readln_matrix_fuel (is : IStream) (matrix : Matrix CInt) (extra : Nat) :
    ((readln_matrix_loop (is.rest.length + 1 + extra) is [] []).1,
        force_rectangularity CInt.zero (readln_matrix_loop (is.rest.length + 1 + extra) is [] []).2)
      = readln_matrix is matrix := by
  induction extra with
  | zero => rfl
  | succ k ih =>
    rw [← ih, ← Nat.add_assoc, readln_matrix_loop_fuel_step _ is [] [] (by omega)]

theorem isdigit_toNat_le {c : Char} (h : isdigit c = true) : c.toNat ≤ 57 := by
  simp only [isdigit, Bool.and_eq_true, decide_eq_true_eq] at h
  have h2 : c.val ≤ ('9' : Char).val := h.2
  exact h2

/-- A character cannot start an integer exactly when the extraction of an
`int` fails on every text that begins with it. -/
theorem cannotStartInt_iff (c : Char) :
    CannotStartInt c ↔ ∀ t : List Char, (extract_int (IStream.ofText (c :: t))).2 = none := by
  constructor
  · intro h t
    rw [IStream.ofText, extract_int_cannot_start [] c t h]
  · intro h
    by_contra hc
    unfold CannotStartInt at hc
    by_cases hsp : isspace c = true
    · have := h ['1']
      simp only [isspace, Bool.or_eq_true, beq_iff_eq] at hsp
      rcases hsp with ((((hs | hs) | hs) | hs) | hs) | hs <;> subst hs <;> revert this <;> decide
    · by_cases hd : isdigit c = true
      · have h57 := isdigit_toNat_le hd
        have hr : INT_MIN ≤ signedValue false (digitsValue [c]) ∧
            signedValue false (digitsValue [c]) ≤ INT_MAX := by
          simp only [signedValue, digitsValue, List.foldl_cons, List.foldl_nil, INT_MIN, INT_MAX,
            Bool.false_eq_true, if_false]
          omega
        have := extract_int_of_not_space [] c [] (isdigit_not_isspace hd) [] [c] [] false
          (takeSign_of_digit [] hd) (List.cons_ne_nil _ _)
          (fun x hx => by rw [List.mem_singleton.mp hx]; exact hd) noDigitHead_nil hr
        have h0 := h []
        rw [IStream.ofText, this] at h0
        cases h0
      · by_cases hp : c = '+'
        · subst hp; have := h ['1']; revert this; decide
        · by_cases hm : c = '-'
          · subst hm; have := h ['1']; revert this; decide
          · exact hc ⟨by simpa using hsp, by simpa using hd, hp, hm⟩

/-! ## The claims -/

/-- C1, counterexample: the matrix with two rows of length zero is rectangular,
`writeln` writes it as three line terminators, and `readln` reads that text
back as the matrix with zero rows, which is a different matrix. -/
theorem c1_round_trip_fails_for_empty_rows :
    Rectangular ([[], []] : Matrix CInt) ∧
      writeln_matrix showInt [] ([[], []] : Matrix CInt) = ['\n', '\n', '\n'] ∧
      (readln_matrix (IStream.ofText (writeln_matrix showInt [] ([[], []] : Matrix CInt))) []).2
        = [] ∧
      (readln_matrix (IStream.ofText (writeln_matrix showInt [] ([[], []] : Matrix CInt))) []).2
        ≠ [[], []] := by
  decide

/-- C1, amended: for every rectangular matrix of `int` without an empty row (so
with zero rows, or with rows of one common length that is at least 1), the
matrix `readln` on the text the matrix `writeln` produces leaves the stream
good at the end of that text and yields a matrix equal to the original. -/
theorem c1_round_trip (matrix : Matrix CInt) (hrect : Rectangular matrix)
    (hne : ∀ row ∈ matrix, row ≠ []) (matrix0 : Matrix CInt) :
    (readln_matrix (IStream.ofText (writeln_matrix showInt [] matrix)) matrix0).1.fail = false ∧
      (readln_matrix (IStream.ofText (writeln_matrix showInt [] matrix)) matrix0).1.rest = [] ∧
      (readln_matrix (IStream.ofText (writeln_matrix showInt [] matrix)) matrix0).2 = matrix := by
  have h := readln_writeln matrix hne [] matrix0
  rw [List.append_nil] at h
  rw [h]
  refine ⟨rfl, rfl, ?_⟩
  cases matrix with
  | nil => rfl
  | cons r rs =>
    have hlen : ∀ row ∈ r :: rs, row.length = r.length := by
      rcases hrect with h0 | h1
      · simp [rows] at h0
      · exact h1
    have hpos : 0 < r.length := by
      have := hne r (List.mem_cons_self _ _)
      cases r with
      | nil => exact absurd rfl this
      | cons _ _ => simp
    exact force_rectangularity_of_uniform CInt.zero hpos hlen

/-- C1, amended, at the matrix [[1, -2], [30, 4]]. -/
theorem c1_round_trip_witness :
    Rectangular [[CInt.ofInt 1, CInt.ofInt (-2)], [CInt.ofInt 30, CInt.ofInt 4]] ∧
      (readln_matrix (IStream.ofText (writeln_matrix showInt []
          [[CInt.ofInt 1, CInt.ofInt (-2)], [CInt.ofInt 30, CInt.ofInt 4]])) []).2
        = [[CInt.ofInt 1, CInt.ofInt (-2)], [CInt.ofInt 30, CInt.ofInt 4]] :=
  ⟨by decide,
    (c1_round_trip [[CInt.ofInt 1, CInt.ofInt (-2)], [CInt.ofInt 30, CInt.ofInt 4]]
      (by decide) (by decide) []).2.2⟩

/-- C2: for every k >= 1 and every list of k non-empty rows of `int` (lengths
may differ), the matrix `readln` on the text that writes each row as its
decimal elements separated by single spaces and ended by a line terminator,
followed by one blank line, leaves the stream not failed and yields exactly k
rows, row i being the i-th input row followed by zeros up to the length of the
longest input row. -/
theorem c2_parse_pads_ragged_rows (input : Matrix CInt) (hk : 1 ≤ input.length)
    (hne : ∀ row ∈ input, row ≠ []) (matrix0 : Matrix CInt) :
    (readln_matrix (IStream.ofText (plain_matrix_text input)) matrix0).1.fail = false ∧
      rows (readln_matrix (IStream.ofText (plain_matrix_text input)) matrix0).2 = input.length ∧
      (readln_matrix (IStream.ofText (plain_matrix_text input)) matrix0).2
        = input.map (fun row =>
            row ++ List.replicate (max_len_ref input - row.length) CInt.zero) := by
  have hb := readln_matrix_blank [] (input.map plain_line) [] [] matrix0
    (linesOk_plain input hne) (fun c hc => by cases hc)
  rw [lines_text_plain, lines_rows_plain] at hb
  have htext : IStream.ofText (plain_matrix_text input)
      = ⟨[], input.flatMap plain_row_text ++ ([] ++ ['\n']), false, false, false⟩ := rfl
  rw [htext, hb]
  have hmax : max_len_ref input ≠ 0 := by
    cases input with
    | nil => simp at hk
    | cons r rs =>
      have h1 := length_le_max_len_ref (List.mem_cons_self r rs)
      have h2 := hne r (List.mem_cons_self _ _)
      cases r with
      | nil => exact absurd rfl h2
      | cons _ _ => simp only [List.length_cons] at h1; omega
  have hfr : force_rectangularity CInt.zero input
      = input.map (fun row =>
          row ++ List.replicate (max_len_ref input - row.length) CInt.zero) := by
    rw [force_rectangularity_eq_ref, force_rectangularity_ref, if_neg hmax]
  rw [hfr]
  exact ⟨rfl, by simp [rows], rfl⟩

/-- C2 at the rows [[1, 2, 3], [4, 5]]: the text is "1 2 3\n4 5\n\n" and the
result is [[1, 2, 3], [4, 5, 0]]. -/
theorem c2_parse_pads_ragged_rows_witness :
    plain_matrix_text [[CInt.ofInt 1, CInt.ofInt 2, CInt.ofInt 3], [CInt.ofInt 4, CInt.ofInt 5]]
        = ['1', ' ', '2', ' ', '3', '\n', '4', ' ', '5', '\n', '\n'] ∧
      (readln_matrix (IStream.ofText (plain_matrix_text
          [[CInt.ofInt 1, CInt.ofInt 2, CInt.ofInt 3], [CInt.ofInt 4, CInt.ofInt 5]])) []).2
        = [[CInt.ofInt 1, CInt.ofInt 2, CInt.ofInt 3],
            [CInt.ofInt 4, CInt.ofInt 5, CInt.ofInt 0]] :=
  ⟨by decide,
    (c2_parse_pads_ragged_rows
      [[CInt.ofInt 1, CInt.ofInt 2, CInt.ofInt 3], [CInt.ofInt 4, CInt.ofInt 5]]
      (by decide) (by decide) []).2.2.trans (by decide)⟩

/-- C3: rectangularity invariant.  Every matrix returned by `matrix(array)`,
`matrix(rows, cols, value)`, `diagonal(size, value)`, `diagonal` of a range or
list, and by the matrix `readln` on every stream (every input text, every
stream state) has zero rows or has every row's length equal to its `cols`. -/
theorem c3_rectangularity_invariant :
    (∀ (T : Type) (N M : Nat) (arr : Fin N → Fin M → T), Rectangular (matrix_of_array arr)) ∧
      (∀ (T : Type) (r c : Nat) (value : T), Rectangular (matrix_fill r c value)) ∧
      (∀ (T : Type) (dflt : T) (size : Nat) (value : T),
        Rectangular (diagonal dflt size value)) ∧
      (∀ (T : Type) (dflt : T) (values : List T), Rectangular (diagonal_range dflt values)) ∧
      (∀ (is : IStream) (matrix0 : Matrix CInt), Rectangular (readln_matrix is matrix0).2) :=
  ⟨fun _ _ _ arr => rectangular_of_lengths (matrix_of_array_lengths arr),
    fun _ r c value => rectangular_of_lengths (matrix_fill_lengths r c value),
    fun _ dflt size value => rectangular_of_lengths (diagonal_lengths dflt size value),
    fun _ dflt values => rectangular_of_lengths (diagonal_range_lengths dflt values),
    fun is _ => rectangular_of_lengths
      (force_rectangularity_lengths CInt.zero
        (readln_matrix_loop (is.rest.length + 1) is [] []).2)⟩

/-- C4: `force_rectangularity` equals its reference definition for every
matrix: with m the maximum row length (0 for no rows), the result has zero rows
when m = 0, and otherwise consists of every row of the matrix, in order and
untruncated, followed by default values up to length m. -/
theorem c4_force_rectangularity_reference (T : Type) (dflt : T) (matrix : Matrix T) :
    force_rectangularity dflt matrix = force_rectangularity_ref dflt matrix ∧
      (if max_len_ref matrix = 0 then rows (force_rectangularity dflt matrix) = 0
       else rows (force_rectangularity dflt matrix) = rows matrix ∧
         (∀ row ∈ force_rectangularity dflt matrix, row.length = max_len_ref matrix) ∧
         ∀ (i : Nat) (row : Matrix_row T), matrix[i]? = some row →
           (force_rectangularity dflt matrix)[i]?
             = some (row ++ List.replicate (max_len_ref matrix - row.length) dflt)) := by
  refine ⟨force_rectangularity_eq_ref dflt matrix, ?_⟩
  split
  · rename_i h
    rw [force_rectangularity_eq_ref, force_rectangularity_ref, if_pos h]; rfl
  · rename_i h
    refine ⟨?_, force_rectangularity_lengths dflt matrix, ?_⟩
    · rw [force_rectangularity_eq_ref, force_rectangularity_ref, if_neg h]
      simp [rows]
    · intro i row hi
      rw [force_rectangularity_eq_ref, force_rectangularity_ref, if_neg h]
      simp [List.getElem?_map, hi]

/-- C5: idempotence of rectangularization, for every matrix (ragged ones and
those whose rows are all empty included). -/
theorem c5_force_rectangularity_idempotent (T : Type) (dflt : T) (matrix : Matrix T) :
    force_rectangularity dflt (force_rectangularity dflt matrix)
      = force_rectangularity dflt matrix := by
  by_cases h : max_len_ref matrix = 0
  · have : force_rectangularity dflt matrix = [] := by
      rw [force_rectangularity_eq_ref, force_rectangularity_ref, if_pos h]
    rw [this]
    rfl
  · exact force_rectangularity_of_uniform dflt (Nat.pos_of_ne_zero h)
      (force_rectangularity_lengths dflt matrix)

/-- C6: malformed token at matrix level.  For every text made of k >= 0
well-formed non-empty row lines followed by a line that holds j >= 0 well-formed
integers (`toks`) and then, after optional spaces and tabs, a token that the
extraction of an `int` rejects (`bad`, with whatever follows it), the matrix
`readln` ends with the stream failed and the matrix equal to
`force_rectangularity` of exactly the first k rows: the j elements of the
partially read row are not part of the result.  The rejected token is not glued
to the last integer as further digits. -/
theorem c6_malformed_token_in_matrix (lines : List Line) (toks : List Token)
    (sep bad : List Char) (matrix0 : Matrix CInt) (hlines : LinesOk lines)
    (htoks : SepsOk toks) (hsep : HwsOnly sep) (hbad : Unparsable bad)
    (hglue : toks = [] ∨ NoDigitHead (sep ++ bad)) :
    (readln_matrix
        (IStream.ofText (lines_text lines ++ (tokens_text toks ++ (sep ++ bad)))) matrix0).1.fail
        = true ∧
      (readln_matrix
        (IStream.ofText (lines_text lines ++ (tokens_text toks ++ (sep ++ bad)))) matrix0).2
        = force_rectangularity CInt.zero (lines_rows lines) := by
  have hrow := readln_row_bad ((lines_text lines).reverse ++ []) toks sep bad [] htoks hsep hbad
    hglue
  rw [IStream.ofText, readln_matrix_lines_then [] lines _ matrix0 hlines (Or.inl hrow.1)]
  exact ⟨hrow.1, rfl⟩

/-- C6 at the text " 1 2\n 3 x\n": one well-formed line, then a line holding
the integer 3 and the token "x".  The stream fails and the matrix is [[1, 2]]. -/
theorem c6_malformed_token_in_matrix_witness :
    lines_text [([([' '], CInt.ofInt 1), ([' '], CInt.ofInt 2)], [])]
        ++ (tokens_text [([' '], CInt.ofInt 3)] ++ ([' '] ++ ['x', '\n']))
        = [' ', '1', ' ', '2', '\n', ' ', '3', ' ', 'x', '\n'] ∧
      (readln_matrix (IStream.ofText (lines_text
          [([([' '], CInt.ofInt 1), ([' '], CInt.ofInt 2)], [])]
        ++ (tokens_text [([' '], CInt.ofInt 3)] ++ ([' '] ++ ['x', '\n'])))) []).1.fail = true ∧
      (readln_matrix (IStream.ofText (lines_text
          [([([' '], CInt.ofInt 1), ([' '], CInt.ofInt 2)], [])]
        ++ (tokens_text [([' '], CInt.ofInt 3)] ++ ([' '] ++ ['x', '\n'])))) []).2
        = [[CInt.ofInt 1, CInt.ofInt 2]] :=
  ⟨by decide,
    (c6_malformed_token_in_matrix [([([' '], CInt.ofInt 1), ([' '], CInt.ofInt 2)], [])]
      [([' '], CInt.ofInt 3)] [' '] ['x', '\n'] [] (by decide) (by decide) (by decide)
      (by decide) (by decide)).1,
    (c6_malformed_token_in_matrix [([([' '], CInt.ofInt 1), ([' '], CInt.ofInt 2)], [])]
      [([' '], CInt.ofInt 3)] [' '] ['x', '\n'] [] (by decide) (by decide) (by decide)
      (by decide) (by decide)).2.trans (by decide)⟩

theorem rows_force_rectangularity {T : Type} (dflt : T) {matrix : Matrix T}
    {row : Matrix_row T} (hrow : row ∈ matrix) (hne : row ≠ []) :
    rows (force_rectangularity dflt matrix) = rows matrix := by
  have h1 := length_le_max_len_ref hrow
  have h2 : 0 < row.length := List.length_pos.mpr hne
  rw [force_rectangularity_eq_ref, force_rectangularity_ref, if_neg (by omega)]
  simp [rows]

/-- C8: strict terminator requirement.  For every text made of k >= 1
well-formed non-empty row lines, each ended by a line terminator, with the end
of input right after the last one (no blank line), the matrix `readln` ends
with the stream failed while the matrix holds all k rows, rectangularized. -/
theorem c8_missing_blank_line_fails (lines : List Line) (matrix0 : Matrix CInt)
    (hk : 1 ≤ lines.length) (hlines : LinesOk lines) :
    (readln_matrix (IStream.ofText (lines_text lines)) matrix0).1.fail = true ∧
      (readln_matrix (IStream.ofText (lines_text lines)) matrix0).2
        = force_rectangularity CInt.zero (lines_rows lines) ∧
      rows (readln_matrix (IStream.ofText (lines_text lines)) matrix0).2 = lines.length := by
  have hrow := readln_row_eof ((lines_text lines).reverse ++ []) [] [] []
    ⟨by simp, by simp⟩ (fun c hc => by cases hc)
  simp only [tokens_text, List.flatMap_nil, List.append_nil] at hrow
  have h := readln_matrix_lines_then [] lines [] matrix0 hlines (Or.inl hrow.1)
  rw [List.append_nil] at h
  rw [IStream.ofText, h]
  refine ⟨hrow.1, rfl, ?_⟩
  cases lines with
  | nil => simp at hk
  | cons l ls =>
    have hl := (hlines l (List.mem_cons_self _ _)).1
    have hmem : tokens_row l.1 ∈ lines_rows (l :: ls) := List.mem_cons_self _ _
    have hne : tokens_row l.1 ≠ [] := fun h => hl (List.map_eq_nil_iff.mp h)
    rw [rows_force_rectangularity CInt.zero hmem hne]
    exact List.length_map _ _

/-- C8 at the text " 1 2\n 3\n" with the end of input after the second line:
the stream fails and the matrix is [[1, 2], [3, 0]]. -/
theorem c8_missing_blank_line_fails_witness :
    lines_text [([([' '], CInt.ofInt 1), ([' '], CInt.ofInt 2)], []),
        ([([' '], CInt.ofInt 3)], [])]
        = [' ', '1', ' ', '2', '\n', ' ', '3', '\n'] ∧
      (readln_matrix (IStream.ofText (lines_text
          [([([' '], CInt.ofInt 1), ([' '], CInt.ofInt 2)], []),
            ([([' '], CInt.ofInt 3)], [])])) []).1.fail = true ∧
      (readln_matrix (IStream.ofText (lines_text
          [([([' '], CInt.ofInt 1), ([' '], CInt.ofInt 2)], []),
            ([([' '], CInt.ofInt 3)], [])])) []).2
        = [[CInt.ofInt 1, CInt.ofInt 2], [CInt.ofInt 3, CInt.ofInt 0]] :=
  ⟨by decide,
    (c8_missing_blank_line_fails
      [([([' '], CInt.ofInt 1), ([' '], CInt.ofInt 2)], []), ([([' '], CInt.ofInt 3)], [])] []
      (by decide) (by decide)).1,
    (c8_missing_blank_line_fails
      [([([' '], CInt.ofInt 1), ([' '], CInt.ofInt 2)], []), ([([' '], CInt.ofInt 3)], [])] []
      (by decide) (by decide)).2.1.trans (by decide)⟩

/-- Rectangularization of a matrix without empty rows, written out: every row
followed by default values up to the maximum row length. -/
theorem force_rectangularity_of_nonempty_rows {T : Type} (dflt : T) (matrix : Matrix T)
    (h : ∀ row ∈ matrix, row ≠ []) :
    force_rectangularity dflt matrix
      = matrix.map (fun row =>
          row ++ List.replicate (max_len_ref matrix - row.length) dflt) := by
  cases matrix with
  | nil => rfl
  | cons r rs =>
    have h1 := length_le_max_len_ref (List.mem_cons_self r rs)
    have h2 : 0 < r.length := List.length_pos.mpr (h r (List.mem_cons_self _ _))
    rw [force_rectangularity_eq_ref, force_rectangularity_ref, if_neg (by omega)]

theorem lines_rows_nonempty (lines : List Line) (hlines : LinesOk lines) :
    ∀ row ∈ lines_rows lines, row ≠ [] := by
  intro row hrow
  obtain ⟨l, hl, rfl⟩ := List.mem_map.mp hrow
  exact fun h => (hlines l hl).1 (List.map_eq_nil_iff.mp h)

/-- C9: the matrix parse stops at, and consumes, the first blank line.  For
every text made of k >= 0 well-formed non-empty row lines, then a line holding
only spaces and tabs (possibly none) and a line terminator, then any text
`rest`, the matrix `readln` leaves the stream not failed, yields exactly k
rows, row i being the row of the i-th line followed by zeros up to the length
of the longest of the k rows, and leaves exactly `rest` unread. -/
theorem c9_parse_stops_at_blank_line (lines : List Line) (blank rest : List Char)
    (matrix0 : Matrix CInt) (hlines : LinesOk lines) (hblank : HwsOnly blank) :
    (readln_matrix
        (IStream.ofText (lines_text lines ++ (blank ++ '\n' :: rest))) matrix0).1.fail = false ∧
      rows (readln_matrix
        (IStream.ofText (lines_text lines ++ (blank ++ '\n' :: rest))) matrix0).2
        = lines.length ∧
      (readln_matrix
        (IStream.ofText (lines_text lines ++ (blank ++ '\n' :: rest))) matrix0).2
        = (lines_rows lines).map (fun row =>
            row ++ List.replicate (max_len_ref (lines_rows lines) - row.length) CInt.zero) ∧
      (readln_matrix
        (IStream.ofText (lines_text lines ++ (blank ++ '\n' :: rest))) matrix0).1.rest = rest := by
  rw [IStream.ofText, readln_matrix_blank [] lines blank rest matrix0 hlines hblank,
    force_rectangularity_of_nonempty_rows CInt.zero _ (lines_rows_nonempty lines hlines)]
  refine ⟨rfl, ?_, rfl, rfl⟩
  unfold rows lines_rows
  rw [List.length_map, List.length_map]

/-- C9 at the text " 1 2\n 3\n \t\nrest" (two row lines of different lengths,
a blank line holding a space and a tab, then the text "rest"): the stream is
not failed, the matrix is [[1, 2], [3, 0]] and "rest" is left unread.  And at
the text "\n": the matrix has 0 rows. -/
theorem c9_parse_stops_at_blank_line_witness :
    lines_text [([([' '], CInt.ofInt 1), ([' '], CInt.ofInt 2)], []),
          ([([' '], CInt.ofInt 3)], [])]
        ++ ([' ', '\t'] ++ '\n' :: ['r', 'e', 's', 't'])
        = [' ', '1', ' ', '2', '\n', ' ', '3', '\n', ' ', '\t', '\n', 'r', 'e', 's', 't'] ∧
      (readln_matrix (IStream.ofText (lines_text
          [([([' '], CInt.ofInt 1), ([' '], CInt.ofInt 2)], []), ([([' '], CInt.ofInt 3)], [])]
        ++ ([' ', '\t'] ++ '\n' :: ['r', 'e', 's', 't']))) []).1.fail = false ∧
      (readln_matrix (IStream.ofText (lines_text
          [([([' '], CInt.ofInt 1), ([' '], CInt.ofInt 2)], []), ([([' '], CInt.ofInt 3)], [])]
        ++ ([' ', '\t'] ++ '\n' :: ['r', 'e', 's', 't']))) []).2
        = [[CInt.ofInt 1, CInt.ofInt 2], [CInt.ofInt 3, CInt.ofInt 0]] ∧
      (readln_matrix (IStream.ofText (lines_text
          [([([' '], CInt.ofInt 1), ([' '], CInt.ofInt 2)], []), ([([' '], CInt.ofInt 3)], [])]
        ++ ([' ', '\t'] ++ '\n' :: ['r', 'e', 's', 't']))) []).1.rest = ['r', 'e', 's', 't'] ∧
      lines_text [] ++ ([] ++ '\n' :: []) = ['\n'] ∧
      rows (readln_matrix (IStream.ofText (lines_text [] ++ ([] ++ '\n' :: []))) []).2 = 0 :=
  ⟨by decide,
    (c9_parse_stops_at_blank_line
      [([([' '], CInt.ofInt 1), ([' '], CInt.ofInt 2)], []), ([([' '], CInt.ofInt 3)], [])]
      [' ', '\t'] ['r', 'e', 's', 't'] [] (by decide) (by decide)).1,
    (c9_parse_stops_at_blank_line
      [([([' '], CInt.ofInt 1), ([' '], CInt.ofInt 2)], []), ([([' '], CInt.ofInt 3)], [])]
      [' ', '\t'] ['r', 'e', 's', 't'] [] (by decide) (by decide)).2.2.1.trans (by decide),
    (c9_parse_stops_at_blank_line
      [([([' '], CInt.ofInt 1), ([' '], CInt.ofInt 2)], []), ([([' '], CInt.ofInt 3)], [])]
      [' ', '\t'] ['r', 'e', 's', 't'] [] (by decide) (by decide)).2.2.2,
    by decide,
    (c9_parse_stops_at_blank_line [] [] [] [] (by decide) (by decide)).2.1⟩

/-- C10: serialization format.  For every row, the row `writeln` appends to the
output, for each element in order, one space followed by the element's text,
and then one line terminator (exactly "\n" for an empty row); for every
matrix, the matrix `writeln` appends the serialization of each row in order and
then exactly one more line terminator. -/
theorem c10_serialization_format (T : Type) (text : T → List Char) :
    (∀ (os : List Char) (row : Matrix_row T),
        writeln_row text os row
          = os ++ (row.flatMap (fun item => ' ' :: text item) ++ ['\n'])) ∧
      writeln_row text [] [] = ['\n'] ∧
      (∀ (os : List Char) (matrix : Matrix T),
        writeln_matrix text os matrix
          = os ++ (matrix.flatMap (fun row => writeln_row text [] row) ++ ['\n'])) := by
  refine ⟨fun os row => writeln_row_eq text os row, rfl, fun os matrix => ?_⟩
  rw [writeln_matrix_eq, matrix_text]
  congr 2
  exact List.flatMap_congr (fun row _ => by rw [writeln_row_eq, List.nil_append])

/-- C11, counterexample: the text the matrix `writeln` emits for
[[1, 2, 3], [4, 5, 0]] is not "1 2 3\n4 5 0\n\n": it differs already in its
first character, which is a space. -/
theorem c11_written_text_is_not_the_parsed_text :
    writeln_matrix showInt []
        [[CInt.ofInt 1, CInt.ofInt 2, CInt.ofInt 3], [CInt.ofInt 4, CInt.ofInt 5, CInt.ofInt 0]]
      ≠ ['1', ' ', '2', ' ', '3', '\n', '4', ' ', '5', ' ', '0', '\n', '\n'] := by
  decide

/-- C11, amended: the matrix `writeln` applied to the `int` matrix
[[1, 2, 3], [4, 5, 0]] emits exactly the text " 1 2 3\n 4 5 0\n\n", with one
space in front of every element, the first of each row included. -/
theorem c11_written_text_of_scenario_1 :
    writeln_matrix showInt []
        [[CInt.ofInt 1, CInt.ofInt 2, CInt.ofInt 3], [CInt.ofInt 4, CInt.ofInt 5, CInt.ofInt 0]]
      = [' ', '1', ' ', '2', ' ', '3', '\n', ' ', '4', ' ', '5', ' ', '0', '\n', '\n'] := by
  rw [writeln_matrix_eq, List.nil_append]
  decide

/-! ## Diagonal builders: lemmas -/

section Diagonal

variable {T : Type}

theorem set_getD_getElem? (l : Matrix T) (i : Nat) (f : Matrix_row T → Matrix_row T) :
    (l.set i (f (l.getD i [])))[i]? = l[i]?.map f := by
  rw [List.getElem?_set, if_pos rfl, List.getD_eq_getElem?_getD]
  by_cases h : i < l.length
  · rw [if_pos h, List.getElem?_eq_getElem h]; rfl
  · rw [if_neg h, List.getElem?_eq_none (Nat.le_of_not_lt h)]; rfl

/-- The loop of a diagonal builder leaves alone the rows whose index it does
not visit. -/
theorem foldl_diagonal_step_not_mem (dflt : T) (size : Nat) (ps : List (Nat × T)) :
    ∀ (res0 : Matrix T) (i : Nat), i ∉ ps.map Prod.fst →
      (ps.foldl (fun r p => diagonal_step dflt size r p.1 p.2) res0)[i]? = res0[i]? := by
  induction ps with
  | nil => intro res0 i _; rfl
  | cons p ps ih =>
    intro res0 i hi
    simp only [List.map_cons, List.mem_cons, not_or] at hi
    rw [List.foldl_cons, ih _ i hi.2, diagonal_step, List.getElem?_set_ne (fun h => hi.1 h.symm)]

/-- The loop of a diagonal builder, visiting every index at most once, turns
the row at a visited index into that row resized with the value on the
diagonal. -/
theorem foldl_diagonal_step_mem (dflt : T) (size : Nat) (ps : List (Nat × T)) :
    ∀ (res0 : Matrix T) (i : Nat) (v : T), (ps.map Prod.fst).Nodup → (i, v) ∈ ps →
      (ps.foldl (fun r p => diagonal_step dflt size r p.1 p.2) res0)[i]?
        = res0[i]?.map (fun row => (resize dflt row size).set i v) := by
  induction ps with
  | nil => intro res0 i v _ h; cases h
  | cons p ps ih =>
    intro res0 i v hnd hmem
    rw [List.map_cons, List.nodup_cons] at hnd
    rw [List.foldl_cons]
    rcases List.mem_cons.mp hmem with h | h
    · subst h
      rw [foldl_diagonal_step_not_mem dflt size ps _ i hnd.1, diagonal_step]
      exact set_getD_getElem? res0 i (fun row => (resize dflt row size).set i v)
    · have hne : p.1 ≠ i := by
        intro hpi
        apply hnd.1
        rw [hpi]
        exact List.mem_map.mpr ⟨(i, v), h, rfl⟩
      rw [ih _ i v hnd.2 h, diagonal_step, List.getElem?_set_ne hne]

theorem diagonal_row_entry (dflt : T) (size i j : Nat) (v : T) (hi : i < size)
    (hj : j < size) :
    ((resize dflt [] size).set i v)[j]? = some (if i = j then v else dflt) := by
  have hr : resize dflt ([] : Matrix_row T) size = List.replicate size dflt := by
    simp [resize]
  rw [hr, List.getElem?_set]
  by_cases hij : i = j
  · rw [if_pos hij, if_pos hij, List.length_replicate, if_pos hi]
  · rw [if_neg hij, if_neg hij, List.getElem?_replicate, if_pos hj]

/-- Entries of the matrix a diagonal loop builds from `size` empty rows. -/
theorem foldl_diagonal_step_entry (dflt : T) (size : Nat) (ps : List (Nat × T))
    (hnd : (ps.map Prod.fst).Nodup) (i j : Nat) (v : T) (hmem : (i, v) ∈ ps) (hi : i < size)
    (hj : j < size) :
    entry (ps.foldl (fun r p => diagonal_step dflt size r p.1 p.2) (List.replicate size [])) i j
      = some (if i = j then v else dflt) := by
  unfold entry
  rw [foldl_diagonal_step_mem dflt size ps _ i v hnd hmem, List.getElem?_replicate, if_pos hi]
  exact diagonal_row_entry dflt size i j v hi hj

theorem foldl_diagonal_step_length (dflt : T) (size : Nat) (ps : List (Nat × T)) :
    ∀ (res0 : Matrix T),
      (ps.foldl (fun r p => diagonal_step dflt size r p.1 p.2) res0).length = res0.length := by
  induction ps with
  | nil => intro res0; rfl
  | cons p ps ih =>
    intro res0
    rw [List.foldl_cons, ih, diagonal_step, List.length_set]

theorem diagonal_eq_foldl_pairs (dflt : T) (size : Nat) (value : T) :
    diagonal dflt size value
      = ((List.range size).map (fun i => (i, value))).foldl
          (fun r p => diagonal_step dflt size r p.1 p.2) (List.replicate size []) := by
  rw [List.foldl_map]; rfl

end Diagonal

/-- C12: diagonal identity.  For every list of values [v0..v(n-1)] the matrix
`diagonal(list)` has exactly n rows, each of length n, and its element at
(i, j) is vi when i = j and the default value otherwise, for all i, j < n; for
every n and v the matrix `diagonal(n, v)` has the same shape, with v at every
diagonal position and the default value elsewhere. -/
theorem c12_diagonal_identity (T : Type) (dflt : T) :
    (∀ values : List T,
        rows (diagonal_range dflt values) = values.length ∧
        (∀ row ∈ diagonal_range dflt values, row.length = values.length) ∧
        ∀ (i j : Nat) (v : T), values[i]? = some v → j < values.length →
          entry (diagonal_range dflt values) i j = some (if i = j then v else dflt)) ∧
      (∀ (n : Nat) (v : T),
        rows (diagonal dflt n v) = n ∧
        (∀ row ∈ diagonal dflt n v, row.length = n) ∧
        ∀ (i j : Nat), i < n → j < n →
          entry (diagonal dflt n v) i j = some (if i = j then v else dflt)) := by
  constructor
  · intro values
    refine ⟨?_, diagonal_range_lengths dflt values, fun i j v hv hj => ?_⟩
    · unfold rows diagonal_range
      rw [foldl_diagonal_step_length, List.length_replicate]
    · have hi : i < values.length := by
        by_contra h
        rw [List.getElem?_eq_none (Nat.le_of_not_lt h)] at hv
        cases hv
      unfold diagonal_range
      exact foldl_diagonal_step_entry dflt values.length values.enum
        (by rw [List.enum_map_fst]; exact List.nodup_range _) i j v
        (List.mk_mem_enum_iff_getElem?.mpr hv) hi hj
  · intro n v
    refine ⟨?_, diagonal_lengths dflt n v, fun i j hi hj => ?_⟩
    · rw [diagonal_eq_foldl_pairs]
      unfold rows
      rw [foldl_diagonal_step_length, List.length_replicate]
    · rw [diagonal_eq_foldl_pairs]
      refine foldl_diagonal_step_entry dflt n _ ?_ i j v ?_ hi hj
      · rw [List.map_map]
        have : (Prod.fst ∘ fun i : Nat => (i, v)) = id := rfl
        rw [this, List.map_id]
        exact List.nodup_range _
      · exact List.mem_map.mpr ⟨i, List.mem_range.mpr hi, rfl⟩

/-- C12 at `diagonal({1, 2, 3})` and `diagonal(3, 7)` over the integers: the two
matrices of the specification, and two of their elements read through the
theorem. -/
theorem c12_diagonal_identity_witness :
    diagonal_range (0 : Int) [1, 2, 3] = [[1, 0, 0], [0, 2, 0], [0, 0, 3]] ∧
      diagonal (0 : Int) 3 7 = [[7, 0, 0], [0, 7, 0], [0, 0, 7]] ∧
      entry (diagonal_range (0 : Int) [1, 2, 3]) 1 1 = some 2 ∧
      entry (diagonal (0 : Int) 3 7) 2 0 = some 0 :=
  ⟨by decide, by decide,
    ((c12_diagonal_identity Int 0).1 [1, 2, 3]).2.2 1 1 2 (by decide) (by decide),
    ((c12_diagonal_identity Int 0).2 3 7).2.2 2 0 (by decide) (by decide)⟩

/-! ## Reshape, fill and `consists_of`: lemmas -/

section Shape

variable {T : Type}

/-- Elements of a resized vector: the old element where there was one, the
default value in the new positions. -/
theorem resize_getElem? {α : Type} (dflt : α) (v : List α) (n j : Nat) (hj : j < n) :
    (resize dflt v n)[j]? = some (v[j]?.getD dflt) := by
  unfold resize
  by_cases h : j < v.length
  · rw [List.getElem?_append_left (by rw [List.length_take]; omega),
      List.getElem?_take_of_lt hj, List.getElem?_eq_getElem h]
    rfl
  · have hlen : (List.take n v).length = v.length := by rw [List.length_take]; omega
    rw [List.getElem?_append_right (by rw [hlen]; omega), hlen, List.getElem?_replicate,
      if_pos (by omega), List.getElem?_eq_none (Nat.le_of_not_lt h)]
    rfl

theorem reshape_rows (dflt : T) (matrix : Matrix T) (r c : Nat) :
    rows (reshape dflt matrix r c) = r := by
  unfold rows reshape
  rw [List.length_map, resize_length]

theorem reshape_lengths (dflt : T) (matrix : Matrix T) (r c : Nat) :
    ∀ row ∈ reshape dflt matrix r c, row.length = c := by
  intro row hrow
  unfold reshape at hrow
  obtain ⟨r0, _, rfl⟩ := List.mem_map.mp hrow
  exact resize_length dflt r0 c

theorem reshape_entry (dflt : T) (matrix : Matrix T) (r c i j : Nat) (hi : i < r)
    (hj : j < c) :
    entry (reshape dflt matrix r c) i j = some ((entry matrix i j).getD dflt) := by
  unfold entry reshape
  rw [List.getElem?_map, resize_getElem? [] matrix r i hi]
  simp only [Option.map_some', Option.some_bind]
  rw [resize_getElem? dflt _ c j hj]
  cases matrix[i]? with
  | none => rfl
  | some row => rfl

end Shape

/-- C13: reshape truncation and padding of contents.  For every matrix (rows of
any lengths) and all r, c, `reshape(M, r, c)` has exactly r rows, every one of
length c, and for all i < r, j < c its element at (i, j) is `M[i][j]` when M
has an element there (i < rows(M) and j < length of row i of M) and the default
value otherwise. -/
theorem c13_reshape_contents (T : Type) (dflt : T) (matrix : Matrix T) (r c : Nat) :
    rows (reshape dflt matrix r c) = r ∧
      (∀ row ∈ reshape dflt matrix r c, row.length = c) ∧
      (∀ (i j : Nat), i < r → j < c →
        entry (reshape dflt matrix r c) i j = some ((entry matrix i j).getD dflt)) ∧
      (∀ (i j : Nat), entry matrix i j = none ↔
        ¬ (i < rows matrix ∧ j < (matrix.getD i []).length)) := by
  refine ⟨reshape_rows dflt matrix r c, reshape_lengths dflt matrix r c,
    fun i j hi hj => reshape_entry dflt matrix r c i j hi hj, fun i j => ?_⟩
  unfold entry rows
  rw [List.getD_eq_getElem?_getD]
  by_cases h : i < matrix.length
  · rw [List.getElem?_eq_getElem h]
    simp only [Option.some_bind, Option.getD_some, h, true_and, not_lt]
    exact List.getElem?_eq_none_iff
  · rw [List.getElem?_eq_none (Nat.le_of_not_lt h)]
    simp [h]

/-- C13 at `reshape([[1, 2, 3], [4], [5, 6]], 4, 2)`: rows are truncated or
padded to two columns and a fourth row of defaults is added. -/
theorem c13_reshape_contents_witness :
    reshape (0 : Int) [[1, 2, 3], [4], [5, 6]] 4 2 = [[1, 2], [4, 0], [5, 6], [0, 0]] ∧
      entry (reshape (0 : Int) [[1, 2, 3], [4], [5, 6]] 4 2) 1 1
        = some ((entry [[1, 2, 3], [4], [5, 6]] 1 1).getD 0) :=
  ⟨by decide,
    (c13_reshape_contents Int 0 [[1, 2, 3], [4], [5, 6]] 4 2).2.2.1 1 1 (by decide) (by decide)⟩

/-- C14, counterexample: reshaping to 0 rows and 5 columns gives a matrix with
no rows, for which `cols` reports 0, not 5. -/
theorem c14_cols_of_reshape_to_zero_rows :
    rows (reshape (0 : Int) [[1, 2]] 0 5) = 0 ∧
      cols (reshape (0 : Int) [[1, 2]] 0 5) = 0 ∧
      cols (reshape (0 : Int) [[1, 2]] 0 5) ≠ 5 := by
  decide

/-- C14, amended: for every matrix and all r, c, `rows(reshape(M, r, c))` is r,
and `cols(reshape(M, r, c))` is c when r is at least 1 (it is 0 when r is 0). -/
theorem c14_reshape_shape_queries (T : Type) (dflt : T) (matrix : Matrix T) (r c : Nat) :
    rows (reshape dflt matrix r c) = r ∧
      cols (reshape dflt matrix r c) = if r = 0 then 0 else c := by
  refine ⟨reshape_rows dflt matrix r c, ?_⟩
  have hrows := reshape_rows dflt matrix r c
  have hlen := reshape_lengths dflt matrix r c
  cases hm : reshape dflt matrix r c with
  | nil =>
    rw [hm] at hrows
    simp only [rows, List.length_nil] at hrows
    rw [← hrows]; rfl
  | cons row rest =>
    rw [hm] at hrows hlen
    simp only [rows, List.length_cons] at hrows
    rw [if_neg (by omega)]
    exact hlen row (List.mem_cons_self _ _)

section ConsistsOf

variable {T : Type} [DecidableEq T]

theorem consists_of_row_iff (row : Matrix_row T) (value : T) :
    consists_of_row row value = true ↔ ∀ item ∈ row, item = value := by
  induction row with
  | nil => simp [consists_of_row]
  | cons item rest ih =>
    unfold consists_of_row
    by_cases h : item = value
    · rw [if_neg (not_not.mpr h), ih]
      simp [h]
    · rw [if_pos h]
      simp [h]

theorem consists_of_matrix_iff (matrix : Matrix T) (value : T) :
    consists_of_matrix matrix value = true ↔ ∀ row ∈ matrix, ∀ item ∈ row, item = value := by
  induction matrix with
  | nil => simp [consists_of_matrix]
  | cons row rest ih =>
    unfold consists_of_matrix
    by_cases h : consists_of_row row value = true
    · rw [h, Bool.not_true, if_neg Bool.false_ne_true, ih]
      rw [consists_of_row_iff] at h
      simp only [List.mem_cons, forall_eq_or_imp]
      exact ⟨fun h2 => ⟨h, h2⟩, fun h2 => h2.2⟩
    · rw [Bool.not_eq_true] at h
      rw [h, Bool.not_false, if_pos rfl]
      have h2 : ¬ ∀ item ∈ row, item = value := by
        rw [← consists_of_row_iff, h]; exact Bool.false_ne_true
      simp only [Bool.false_eq_true, List.mem_cons, forall_eq_or_imp, false_iff, not_and]
      exact fun h3 => absurd h3 h2

end ConsistsOf

theorem consists_of_row_by_iff {T : Type} (ne : T → T → Bool) (row : Matrix_row T)
    (value : T) :
    consists_of_row_by ne row value = true ↔ ∀ item ∈ row, ne item value = false := by
  induction row with
  | nil => simp [consists_of_row_by]
  | cons item rest ih =>
    unfold consists_of_row_by
    cases h : ne item value with
    | false =>
      rw [if_neg Bool.false_ne_true, ih]
      simp only [List.mem_cons, forall_eq_or_imp]
      exact ⟨fun h2 => ⟨h, h2⟩, fun h2 => h2.2⟩
    | true =>
      rw [if_pos rfl]
      simp only [Bool.false_eq_true, List.mem_cons, forall_eq_or_imp, false_iff, not_and]
      intro h2
      rw [h] at h2
      cases h2

theorem consists_of_matrix_by_iff {T : Type} (ne : T → T → Bool) (matrix : Matrix T)
    (value : T) :
    consists_of_matrix_by ne matrix value = true
      ↔ ∀ row ∈ matrix, ∀ item ∈ row, ne item value = false := by
  induction matrix with
  | nil => simp [consists_of_matrix_by]
  | cons row rest ih =>
    unfold consists_of_matrix_by
    cases h : consists_of_row_by ne row value with
    | true =>
      rw [Bool.not_true, if_neg Bool.false_ne_true, ih]
      rw [consists_of_row_by_iff] at h
      simp only [List.mem_cons, forall_eq_or_imp]
      exact ⟨fun h2 => ⟨h, h2⟩, fun h2 => h2.2⟩
    | false =>
      rw [Bool.not_false, if_pos rfl]
      have h2 : ¬ ∀ item ∈ row, ne item value = false := by
        rw [← consists_of_row_by_iff, h]; exact Bool.false_ne_true
      simp only [Bool.false_eq_true, List.mem_cons, forall_eq_or_imp, false_iff, not_and]
      exact fun h3 => absurd h3 h2

/-- For an element type whose `operator!=` is the negation of a decidable
equality, the general `consists_of` is the one stated with that equality. -/
theorem consists_of_matrix_by_decide {T : Type} [DecidableEq T] (matrix : Matrix T)
    (value : T) :
    consists_of_matrix_by (fun a b => decide (a ≠ b)) matrix value
      = consists_of_matrix matrix value := by
  rw [Bool.eq_iff_iff, consists_of_matrix_by_iff, consists_of_matrix_iff]
  simp

theorem mem_fill_matrix {T : Type} (matrix : Matrix T) (value : T) (row : Matrix_row T)
    (item : T) (hrow : row ∈ fill_matrix matrix value) (hitem : item ∈ row) : item = value := by
  unfold fill_matrix at hrow
  obtain ⟨r0, _, rfl⟩ := List.mem_map.mp hrow
  exact (List.mem_replicate.mp hitem).2

/-- Fill on an element type with a decidable equality as its comparison: the
filled matrix consists of the value, for every value. -/
theorem fill_consists_of (T : Type) [DecidableEq T] (matrix : Matrix T) (value : T) :
    consists_of_matrix (fill_matrix matrix value) value = true := by
  rw [consists_of_matrix_iff]
  exact fun row hrow item hitem => mem_fill_matrix matrix value row item hrow hitem

/-- C15, counterexample: for elements of type `double`, the matrix [[1, 2]]
filled with a NaN is [[NaN, NaN]], and `consists_of` of it and the NaN is false,
because a NaN differs from itself under `operator!=`. -/
theorem c15_fill_with_nan_does_not_consist_of_nan :
    fill_matrix [[Double.num 1, Double.num 2]] Double.nan = [[Double.nan, Double.nan]] ∧
      consists_of_matrix_by Double.ne
        (fill_matrix [[Double.num 1, Double.num 2]] Double.nan) Double.nan = false := by
  decide

/-- C15, amended: fill.  For every element type with its `operator!=`, every
matrix (rows of any lengths) and every value v, `fill` leaves the shape
unchanged (the number of rows and the length of every row are those of M), and
`consists_of(fill(M, v), v)` is true whenever v does not differ from itself
under `operator!=`; exactly, it is true if and only if v does not differ from
itself or M has no element at all. -/
theorem c15_fill_with_self_equal_value (T : Type) (ne : T → T → Bool) (matrix : Matrix T)
    (value : T) :
    (ne value value = false →
        consists_of_matrix_by ne (fill_matrix matrix value) value = true) ∧
      rows (fill_matrix matrix value) = rows matrix ∧
      (fill_matrix matrix value).map List.length = matrix.map List.length ∧
      (consists_of_matrix_by ne (fill_matrix matrix value) value = true ↔
        (ne value value = false ∨ ∀ row ∈ matrix, row = [])) := by
  have hsuff : ne value value = false →
      consists_of_matrix_by ne (fill_matrix matrix value) value = true := by
    intro hv
    rw [consists_of_matrix_by_iff]
    intro row hrow item hitem
    rw [mem_fill_matrix matrix value row item hrow hitem]
    exact hv
  refine ⟨hsuff, ?_, ?_, ?_⟩
  · unfold rows fill_matrix
    exact List.length_map _ _
  · unfold fill_matrix fill_row
    rw [List.map_map]
    exact List.map_congr_left (fun row _ => List.length_replicate _ _)
  · constructor
    · intro h
      rw [consists_of_matrix_by_iff] at h
      by_cases hempty : ∀ row ∈ matrix, row = []
      · exact Or.inr hempty
      · left
        simp only [not_forall] at hempty
        obtain ⟨row, hrow, hne⟩ := hempty
        have hmem : fill_row row value ∈ fill_matrix matrix value :=
          List.mem_map.mpr ⟨row, hrow, rfl⟩
        have hpos : 0 < row.length := List.length_pos.mpr hne
        have hitem : value ∈ fill_row row value := by
          unfold fill_row
          exact List.mem_replicate.mpr ⟨by omega, rfl⟩
        exact h _ hmem value hitem
    · rintro (hv | hempty)
      · exact hsuff hv
      · rw [consists_of_matrix_by_iff]
        intro row hrow item hitem
        unfold fill_matrix at hrow
        obtain ⟨r0, hr0, rfl⟩ := List.mem_map.mp hrow
        rw [hempty r0 hr0] at hitem
        cases hitem

/-- C15, amended, at the ragged `int` matrix [[1, 2, 3], [4], []] filled with 9,
with the comparison of integers as `operator!=`. -/
theorem c15_fill_with_self_equal_value_witness :
    ((fun a b : Int => a != b) 9 9 = false) ∧
      fill_matrix ([[1, 2, 3], [4], []] : Matrix Int) 9 = [[9, 9, 9], [9], []] ∧
      consists_of_matrix_by (fun a b : Int => a != b)
        (fill_matrix ([[1, 2, 3], [4], []] : Matrix Int) 9) 9 = true :=
  ⟨by decide, by decide,
    (c15_fill_with_self_equal_value Int (fun a b : Int => a != b) [[1, 2, 3], [4], []] 9).1
      (by decide)⟩

/-- C16: `consists_of` is exact.  For every row and for every matrix (rows of
any lengths) and every value v, `consists_of(container, v)` is true if and only
if every element of the container equals v; in particular it is true for an
empty row, for a matrix with zero rows and for a matrix whose rows are all
empty. -/
theorem c16_consists_of_exact (T : Type) [DecidableEq T] (value : T) :
    (∀ row : Matrix_row T, consists_of_row row value = true ↔ ∀ item ∈ row, item = value) ∧
      (∀ matrix : Matrix T,
        consists_of_matrix matrix value = true ↔ ∀ row ∈ matrix, ∀ item ∈ row, item = value) ∧
      consists_of_row ([] : Matrix_row T) value = true ∧
      consists_of_matrix ([] : Matrix T) value = true ∧
      (∀ n : Nat, consists_of_matrix (List.replicate n ([] : Matrix_row T)) value = true) := by
  refine ⟨fun row => consists_of_row_iff row value,
    fun matrix => consists_of_matrix_iff matrix value, rfl, rfl, fun n => ?_⟩
  rw [consists_of_matrix_iff]
  intro row hrow item hitem
  rw [(List.mem_replicate.mp hrow).2] at hitem
  cases hitem

/-- C16 at the two matrices of the specification: [[5, 5], [5, 5]] consists of
5, [[5, 5], [5, 6]] does not. -/
theorem c16_consists_of_exact_witness :
    consists_of_matrix ([[5, 5], [5, 5]] : Matrix Int) 5 = true ∧
      consists_of_matrix ([[5, 5], [5, 6]] : Matrix Int) 5 = false ∧
      (consists_of_matrix ([[5, 5], [5, 6]] : Matrix Int) 5 = true ↔
        ∀ row ∈ ([[5, 5], [5, 6]] : Matrix Int), ∀ item ∈ row, item = 5) :=
  ⟨by decide, by decide, (c16_consists_of_exact Int 5).2.1 [[5, 5], [5, 6]]⟩

/-- C17: size and fill constructor.  For all r, c and every value v,
`matrix(r, c, v)` has exactly r rows, each consisting of exactly c copies of v;
with the value omitted, v is the default value, so every element is the
default. -/
theorem c17_matrix_size_fill (T : Type) (r c : Nat) (value : T) :
    rows (matrix_fill r c value) = r ∧
      (∀ row ∈ matrix_fill r c value, row = List.replicate c value) ∧
      matrix_fill r c value = List.replicate r (List.replicate c value) := by
  have h : matrix_fill r c value = List.replicate r (List.replicate c value) := by
    unfold matrix_fill
    rw [List.map_replicate]
  refine ⟨?_, ?_, h⟩
  · rw [h]; exact List.length_replicate _ _
  · intro row hrow
    rw [h] at hrow
    exact (List.mem_replicate.mp hrow).2

/-- C17 at `matrix(2, 3, 9)`. -/
theorem c17_matrix_size_fill_witness :
    matrix_fill 2 3 (9 : Int) = [[9, 9, 9], [9, 9, 9]] :=
  (c17_matrix_size_fill Int 2 3 9).2.2.trans (by decide)

/-- C18: row-level round trip.  For every row of `int` (the empty row included)
and every following text `rest`, the row `readln` on the text the row `writeln`
produces for the row, followed by `rest`, leaves the stream not failed, yields
a row equal to the original, and leaves exactly `rest` unread, whatever the
destination held before. -/
theorem c18_row_round_trip (row : Matrix_row CInt) (rest : List Char)
    (row0 : Matrix_row CInt) :
    (readln_row (IStream.ofText (writeln_row showInt [] row ++ rest)) row0).1.fail = false ∧
      (readln_row (IStream.ofText (writeln_row showInt [] row ++ rest)) row0).2 = row ∧
      (readln_row (IStream.ofText (writeln_row showInt [] row ++ rest)) row0).1.rest = rest := by
  have h := readln_row_line [] (written_tokens row) [] rest row0 (sepsOk_written row)
    (fun c hc => by cases hc)
  have htext : line_text (written_tokens row) [] = writeln_row showInt [] row := by
    rw [writeln_row_eq, List.nil_append]
    exact line_text_written row
  rw [htext, tokens_row_written] at h
  rw [IStream.ofText, h]
  exact ⟨rfl, rfl, rfl⟩

/-- C18 at the row [12, -3] followed by the text "x", and at the empty row. -/
theorem c18_row_round_trip_witness :
    writeln_row showInt [] [CInt.ofInt 12, CInt.ofInt (-3)] ++ ['x']
        = [' ', '1', '2', ' ', '-', '3', '\n', 'x'] ∧
      (readln_row (IStream.ofText
          (writeln_row showInt [] [CInt.ofInt 12, CInt.ofInt (-3)] ++ ['x'])) []).2
        = [CInt.ofInt 12, CInt.ofInt (-3)] ∧
      (readln_row (IStream.ofText (writeln_row showInt [] [] ++ [])) [CInt.ofInt 7]).2 = [] :=
  ⟨by decide, (c18_row_round_trip [CInt.ofInt 12, CInt.ofInt (-3)] ['x'] []).2.1,
    (c18_row_round_trip [] [] [CInt.ofInt 7]).2.1⟩

/-- The matrix `readln` on a stream that is not good: the stream fails and the
matrix has no rows. -/
theorem readln_matrix_not_good (is : IStream) (matrix0 : Matrix CInt)
    (h : is.good = false) :
    (readln_matrix is matrix0).1.fail = true ∧ (readln_matrix is matrix0).2 = [] := by
  have hrow : readln_row is [] = ({ is with eofbit := false, failbit := true }, []) :=
    readln_row_loop_not_good _ is [] h
  have hstop := readln_matrix_loop_stop is.rest.length is [] [] (Or.inr (by rw [hrow]))
  unfold readln_matrix
  rw [hstop, hrow]
  exact ⟨by simp [IStream.fail], rfl⟩

/-- C19: the parse result does not depend on what the destination held before.
For every stream and any two initial contents of the destination, the row
`readln` (respectively the matrix `readln`) gives the same row (matrix), the
same stream state and the same unread input.  In particular a parse that fails
before reading any element (the stream is not good on entry, or the first token
is rejected) leaves the destination empty. -/
theorem c19_destination_contents_are_ignored :
    (∀ (is : IStream) (row1 row2 : Matrix_row CInt), readln_row is row1 = readln_row is row2) ∧
      (∀ (is : IStream) (matrix1 matrix2 : Matrix CInt),
        readln_matrix is matrix1 = readln_matrix is matrix2) ∧
      (∀ (is : IStream) (row : Matrix_row CInt), is.good = false →
        (readln_row is row).1.fail = true ∧ (readln_row is row).2 = []) ∧
      (∀ (sep bad : List Char) (row : Matrix_row CInt), HwsOnly sep → Unparsable bad →
        (readln_row (IStream.ofText (sep ++ bad)) row).1.fail = true ∧
          (readln_row (IStream.ofText (sep ++ bad)) row).2 = []) ∧
      (∀ (is : IStream) (matrix : Matrix CInt), is.good = false →
        (readln_matrix is matrix).1.fail = true ∧ (readln_matrix is matrix).2 = []) := by
  refine ⟨fun _ _ _ => rfl, fun _ _ _ => rfl, fun is row h => ?_, fun sep bad row hs hb => ?_,
    fun is matrix h => readln_matrix_not_good is matrix h⟩
  · have hrow : readln_row is row = ({ is with eofbit := false, failbit := true }, []) :=
      readln_row_loop_not_good _ is [] h
    rw [hrow]
    exact ⟨by simp [IStream.fail], rfl⟩
  · have := readln_row_bad [] [] sep bad row ⟨by simp, by simp⟩ hs hb (Or.inl rfl)
    simpa [tokens_text, tokens_row] using this

/-- C19 at the text "x" with the destination holding [9, 9] before: the parse
fails and the destination is empty, as for an empty destination. -/
theorem c19_destination_contents_are_ignored_witness :
    readln_row (IStream.ofText ['x']) [CInt.ofInt 9, CInt.ofInt 9]
        = readln_row (IStream.ofText ['x']) [] ∧
      (readln_row (IStream.ofText ['x']) [CInt.ofInt 9, CInt.ofInt 9]).2 = [] ∧
      (readln_matrix (IStream.ofText ['x']) [[CInt.ofInt 9]]).2 = [] :=
  ⟨c19_destination_contents_are_ignored.1 _ _ _, by decide, by decide⟩

theorem max_len_ref_of_all_empty {T : Type} (matrix : Matrix T)
    (h : ∀ row ∈ matrix, row = []) : max_len_ref matrix = 0 := by
  induction matrix with
  | nil => rfl
  | cons r rest ih =>
    have hr : r = [] := h r (List.mem_cons_self _ _)
    have := ih (fun row hrow => h row (List.mem_cons_of_mem _ hrow))
    simp only [max_len_ref, List.map_cons, List.foldr_cons] at this ⊢
    rw [this, hr]
    rfl

/-- C20: fixed points of rectangularization.  For every matrix M,
`force_rectangularity(M) = M` if and only if M has zero rows or all rows of M
have one common length that is greater than zero; so a matrix with at least one
row whose rows are all empty is changed, to the matrix with zero rows. -/
theorem c20_force_rectangularity_fixed_points (T : Type) (dflt : T) (matrix : Matrix T) :
    (force_rectangularity dflt matrix = matrix ↔
        (rows matrix = 0 ∨ ∃ n : Nat, 0 < n ∧ ∀ row ∈ matrix, row.length = n)) ∧
      (rows matrix ≠ 0 → (∀ row ∈ matrix, row = []) →
        force_rectangularity dflt matrix = [] ∧ force_rectangularity dflt matrix ≠ matrix) := by
  constructor
  · constructor
    · intro hfix
      by_cases h0 : max_len_ref matrix = 0
      · left
        rw [force_rectangularity_eq_ref, force_rectangularity_ref, if_pos h0] at hfix
        rw [← hfix]; rfl
      · right
        refine ⟨max_len_ref matrix, Nat.pos_of_ne_zero h0, fun row hrow => ?_⟩
        rw [← hfix] at hrow
        exact force_rectangularity_lengths dflt matrix row hrow
    · rintro (h | ⟨n, hn, hrows⟩)
      · have : matrix = [] := List.eq_nil_of_length_eq_zero h
        subst this
        rfl
      · exact force_rectangularity_of_uniform dflt hn hrows
  · intro hne hall
    have h0 := max_len_ref_of_all_empty matrix hall
    have hnil : force_rectangularity dflt matrix = [] := by
      rw [force_rectangularity_eq_ref, force_rectangularity_ref, if_pos h0]
    refine ⟨hnil, fun h => hne ?_⟩
    rw [← h, hnil]; rfl

/-- C20 at the matrices [[], []] (changed to the matrix with zero rows) and
[[1, 2], [3, 4]] (a fixed point). -/
theorem c20_force_rectangularity_fixed_points_witness :
    force_rectangularity (0 : Int) [[], []] = [] ∧
      force_rectangularity (0 : Int) [[], []] ≠ [[], []] ∧
      force_rectangularity (0 : Int) [[1, 2], [3, 4]] = [[1, 2], [3, 4]] :=
  ⟨((c20_force_rectangularity_fixed_points Int 0 [[], []]).2 (by decide) (by decide)).1,
    ((c20_force_rectangularity_fixed_points Int 0 [[], []]).2 (by decide) (by decide)).2,
    by decide⟩

end AMatrix2
